/-
  Verification of the sudokuplusplus constraint engine.

  Shallow embedding of src/sudoku.cpp (the sudoku class) and of the
  generator loops in src/main.cpp.  Cells are modelled as natural numbers:
  the source stores ASCII characters with EMPTY = the zero character and
  digits one through nine; we map the digit character for d to the number
  d and EMPTY to 0.  A board is the flattened 81-cell sequence board_,
  modelled as a list of naturals read with getD (out-of-range reads give
  EMPTY, which never happens on the 81-cell boards the source uses).
  The easy_set candidate sets (hash sets of digit characters) are modelled
  as Finset Nat.  Member functions that mutate the object are modelled as
  functions threading the mutated fields explicitly; recursive member
  functions get a fuel parameter (structural recursion) with fuel at least
  the number of empty cells plus one, which mirrors the source recursion
  depth exactly.
-/
import Mathlib

set_option maxRecDepth 80000
set_option maxHeartbeats 2000000

namespace Sudoku

/-- Value of an empty field (sudoku.hpp: static constexpr char EMPTY). -/
def EMPTY : Nat := 0

/-- sudoku.cpp: const easy_set ALL_DIGITS = digits one through nine. -/
def ALL_DIGITS : Finset Nat := {1, 2, 3, 4, 5, 6, 7, 8, 9}

/-- The flattened 81-cell board (sudoku.hpp: board_t = std::array of 81 chars). -/
abbrev Board := List Nat

/-- sudoku.cpp get_row_for: idx / 9. -/
def get_row_for (idx : Nat) : Nat := idx / 9

/-- sudoku.cpp get_col_for: idx % 9. -/
def get_col_for (idx : Nat) : Nat := idx % 9

/-- sudoku.cpp get_box_for: 3 * (row / 3) + col / 3. -/
def get_box_for (idx : Nat) : Nat := 3 * (get_row_for idx / 3) + get_col_for idx / 3

/-- sudoku.cpp index_for: row * 9 + col. -/
def index_for (row col : Nat) : Nat := row * 9 + col

/-- Read the cell at a flattened index (board_.at(idx)). -/
def cell (b : Board) (idx : Nat) : Nat := b.getD idx EMPTY

/-- sudoku.cpp get(row, col): board_.at(index_for(row, col)). -/
def get (b : Board) (row col : Nat) : Nat := cell b (index_for row col)

/-- sudoku.cpp set(idx, digit): board_[idx] = digit. -/
def set_digit (b : Board) (idx digit : Nat) : Board := b.set idx digit

/-- sudoku.cpp find_free_cell: scan indices 0..80 in order, return the first
index holding EMPTY (the source returns the row and column of that index). -/
def find_free_cell (b : Board) : Option Nat :=
  (List.range 81).find? (fun i => cell b i == EMPTY)

/-- sudoku.cpp is_safe(row, col, digit): digit absent from the row, the column
and the 3x3 box.  The fused source loop checks board cells row * 9 + i and
i * 9 + col for i in 0..8, then the box rows row - row % 3 .. + 2 and columns
col - col % 3 .. + 2. -/
def is_safe (b : Board) (row col digit : Nat) : Bool :=
  ((List.range 9).all fun i =>
      (cell b (row * 9 + i) != digit) && (cell b (i * 9 + col) != digit)) &&
  ((List.range 3).all fun i => (List.range 3).all fun j =>
      get b (row - row % 3 + i) (col - col % 3 + j) != digit)

/-- sudoku.cpp empty_count: number of EMPTY cells. -/
def empty_count (b : Board) : Nat := b.countP (fun c => c == EMPTY)

/-- sudoku.cpp is_solved: every cell differs from EMPTY. -/
def is_solved (b : Board) : Bool := b.all (fun c => c != EMPTY)

/-- The digit-trying loop shared verbatim by count_solutions,
count_solutions_limited and solve in sudoku.cpp:

  for i in 0..8: if is_safe(row, col, g[i]) { set(row, col, g[i]);
                                              recurse; set(row, col, EMPTY); }

The recursive body is the parameter f; it threads an accumulator of type s
(the solution counter, or the list of solved boards) together with the
mutated board.  The bool results of the recursive calls are discarded by
the source loops, so f only returns the threaded state. -/
def try_digits {s : Type} (f : Board → s → s × Board) (p : Nat) :
    List Nat → s → Board → s × Board
  | [], n, b => (n, b)
  | d :: rest, n, b =>
    if is_safe b (get_row_for p) (get_col_for p) d then
      let st := f (set_digit b p d) n
      try_digits f p rest st.1 (set_digit st.2 p EMPTY)
    else
      try_digits f p rest n b

/-- sudoku.cpp count_solutions(int and n): if no free cell, increment n and
return; otherwise try each guess digit in order, recursing on each safe
placement and backtracking.  The threaded state is the counter n together
with the board; fuel bounds the recursion depth (any fuel exceeding the
number of empty cells reproduces the source exactly). -/
def count_solutions_go (gs : List Nat) : Nat → Board → Nat → Nat × Board
  | 0, b, n => (n, b)
  | fuel + 1, b, n =>
    match find_free_cell b with
    | none => (n + 1, b)
    | some p => try_digits (fun b n => count_solutions_go gs fuel b n) p gs n b

/-- sudoku.cpp solution_count: run count_solutions with n = 0. -/
def solution_count (gs : List Nat) (b : Board) : Nat :=
  (count_solutions_go gs (empty_count b + 1) b 0).1

/-- sudoku.cpp count_solutions_limited(int and n):

  if no free cell: return ++n > 1;
  for each guess digit: if safe { set; count_solutions_limited(n); unset; }
  return n == 1;

The bool results of the recursive calls are discarded by the source (the
loop body ignores them and never breaks), so the recursion threads only
(n, board); the bool is recomputed at every level and only the top-level
value is observed.  Result: (returned bool, final n, final board). -/
def count_solutions_limited_go (gs : List Nat) : Nat → Board → Nat → Bool × Nat × Board
  | 0, b, n => (false, n, b)
  | fuel + 1, b, n =>
    match find_free_cell b with
    | none => (decide (1 < n + 1), n + 1, b)
    | some p =>
      let st := try_digits
        (fun b n =>
          let r := count_solutions_limited_go gs fuel b n
          (r.2.1, r.2.2)) p gs n b
      (decide (st.1 = 1), st.1, st.2)

/-- sudoku.cpp has_one_clear_solution: n = 0; return count_solutions_limited(n).
Result: (returned bool, final board). -/
def has_one_clear_solution (gs : List Nat) (b : Board) : Bool × Board :=
  let r := count_solutions_limited_go gs (empty_count b + 1) b 0
  (r.1, r.2.2)

/-- sudoku.cpp solve: if no free cell, push the board onto solved_boards_ and
return true; otherwise run the digit loop (discarding the recursive results)
and return false.  The threaded state is (solved_boards_, board). -/
def solve_go (gs : List Nat) : Nat → Board → List Board → Bool × List Board × Board
  | 0, b, acc => (false, acc, b)
  | fuel + 1, b, acc =>
    match find_free_cell b with
    | none => (true, acc ++ [b], b)
    | some p =>
      let st := try_digits
        (fun b acc =>
          let r := solve_go gs fuel b acc
          (r.2.1, r.2.2)) p gs acc b
      (false, st.1, st.2)

/-- Top-level solve call: acc is the current solved_boards_ contents. -/
def solve (gs : List Nat) (b : Board) (acc : List Board) : Bool × List Board × Board :=
  solve_go gs (empty_count b + 1) b acc

/-! ### Basic lemmas about cells and the free-cell scan -/

theorem set_digit_set_digit (b : Board) (p d e : Nat) :
    set_digit (set_digit b p d) p e = set_digit b p e := by
  simp [set_digit, List.set_set]

theorem set_digit_cell (b : Board) (p : Nat) : set_digit b p (cell b p) = b := by
  induction b generalizing p with
  | nil => rfl
  | cons c t ih =>
    cases p with
    | zero => rfl
    | succ q => simpa [set_digit, cell, List.getD] using congrArg (c :: ·) (ih q)

theorem cell_set_digit_same (b : Board) (p d : Nat) (hp : p < b.length) :
    cell (set_digit b p d) p = d := by
  simp [cell, set_digit, List.getD, List.getElem?_set_self, hp]

theorem cell_set_digit_other (b : Board) (p q d : Nat) (h : p ≠ q) :
    cell (set_digit b p d) q = cell b q := by
  simp [cell, set_digit, List.getD, List.getElem?_set_ne h]

theorem length_set_digit (b : Board) (p d : Nat) :
    (set_digit b p d).length = b.length := by
  simp [set_digit]

theorem find_free_cell_eq_none (b : Board) :
    find_free_cell b = none ↔ ∀ p < 81, cell b p ≠ EMPTY := by
  constructor
  · intro h p hp hc
    have := List.find?_eq_none.mp h p (List.mem_range.mpr hp)
    simp [hc] at this
  · intro h
    exact List.find?_eq_none.mpr fun p hp => by
      simpa using h p (List.mem_range.mp hp)

theorem find_free_cell_spec (b : Board) (p : Nat) (h : find_free_cell b = some p) :
    p < 81 ∧ cell b p = EMPTY := by
  refine ⟨List.mem_range.mp (List.mem_of_find?_eq_some h), ?_⟩
  have := List.find?_some h
  simpa using this

theorem find_free_cell_isSome (b : Board) (p : Nat) (hp : p < 81)
    (hc : cell b p = EMPTY) : (find_free_cell b).isSome := by
  cases h : find_free_cell b with
  | some q => rfl
  | none => exact absurd hc ((find_free_cell_eq_none b).mp h p hp)

/-! ### Backtracking restores the board

Every placement in the three backtrackers is paired with a reset to EMPTY,
so each of them leaves the board exactly as it found it.  This is the
invariant the generator carve loops rely on. -/

theorem try_digits_restore {s : Type} (f : Board → s → s × Board) (p : Nat)
    (hf : ∀ b n, (f b n).2 = b) (ds : List Nat) (n : s) (b : Board)
    (hb : cell b p = EMPTY) : (try_digits f p ds n b).2 = b := by
  induction ds generalizing n b with
  | nil => rfl
  | cons d rest ih =>
    by_cases hs : is_safe b (get_row_for p) (get_col_for p) d = true
    · have hres : set_digit ((f (set_digit b p d) n).2) p EMPTY = b := by
        rw [hf, set_digit_set_digit, ← hb, set_digit_cell]
      simp only [try_digits, hs, if_true]
      rw [ih _ _ (by rw [hres]; exact hb)]
      exact hres
    · simp only [try_digits, hs, if_false]
      exact ih n b hb

theorem count_solutions_go_board (gs : List Nat) (fuel : Nat) (b : Board) (n : Nat) :
    (count_solutions_go gs fuel b n).2 = b := by
  induction fuel generalizing b n with
  | zero => rfl
  | succ fuel ih =>
    cases h : find_free_cell b with
    | none => simp [count_solutions_go, h]
    | some p =>
      simp only [count_solutions_go, h]
      exact try_digits_restore _ p (fun b n => ih b n) gs n b (find_free_cell_spec b p h).2

theorem try_digits_congr {s : Type} (f g : Board → s → s × Board) (p : Nat)
    (h : ∀ b n, f b n = g b n) (ds : List Nat) (n : s) (b : Board) :
    try_digits f p ds n b = try_digits g p ds n b := by
  induction ds generalizing n b with
  | nil => rfl
  | cons d rest ih =>
    simp only [try_digits, h]
    by_cases hs : is_safe b (get_row_for p) (get_col_for p) d = true
    · simp only [hs, if_true]
      exact ih _ _
    · simp only [hs, if_false]
      exact ih _ _

theorem count_solutions_limited_go_eq (gs : List Nat) (fuel : Nat) (b : Board) (n : Nat) :
    (count_solutions_limited_go gs fuel b n).2 = count_solutions_go gs fuel b n := by
  induction fuel generalizing b n with
  | zero => rfl
  | succ fuel ih =>
    cases h : find_free_cell b with
    | none => simp [count_solutions_limited_go, count_solutions_go, h]
    | some p =>
      simp only [count_solutions_limited_go, count_solutions_go, h]
      rw [try_digits_congr _ (fun b n => count_solutions_go gs fuel b n) p
        (fun b n => by simp only []; rw [ih]) gs n b]

theorem count_solutions_limited_go_board (gs : List Nat) (fuel : Nat) (b : Board) (n : Nat) :
    (count_solutions_limited_go gs fuel b n).2.2 = b := by
  rw [count_solutions_limited_go_eq]
  exact count_solutions_go_board gs fuel b n

theorem has_one_clear_solution_board (gs : List Nat) (b : Board) :
    (has_one_clear_solution gs b).2 = b := by
  simp only [has_one_clear_solution]
  exact count_solutions_limited_go_board gs _ b 0

theorem solve_go_board (gs : List Nat) (fuel : Nat) (b : Board) (acc : List Board) :
    (solve_go gs fuel b acc).2.2 = b := by
  induction fuel generalizing b acc with
  | zero => rfl
  | succ fuel ih =>
    cases h : find_free_cell b with
    | none => simp [solve_go, h]
    | some p =>
      simp only [solve_go, h]
      exact try_digits_restore _ p (fun b acc => ih b acc) gs acc b (find_free_cell_spec b p h).2

/-! ### The guess loop as a sum / concatenation over safe branches -/

/-- The digits of ds that are safe to place at p on board b. -/
def safe_digits (b : Board) (p : Nat) (ds : List Nat) : List Nat :=
  ds.filter fun d => is_safe b (get_row_for p) (get_col_for p) d

theorem try_digits_count (k : Board → Nat) (f : Board → Nat → Nat × Board) (p : Nat)
    (hf : ∀ b n, f b n = (n + k b, b)) (ds : List Nat) (n : Nat) (b : Board)
    (hb : cell b p = EMPTY) :
    try_digits f p ds n b =
      (n + ((safe_digits b p ds).map fun d => k (set_digit b p d)).sum, b) := by
  induction ds generalizing n with
  | nil => simp [try_digits, safe_digits]
  | cons d rest ih =>
    by_cases hs : is_safe b (get_row_for p) (get_col_for p) d = true
    · have hres : set_digit (set_digit b p d) p EMPTY = b := by
        rw [set_digit_set_digit, ← hb, set_digit_cell]
      simp only [try_digits, hs, if_true, hf]
      rw [hres, ih _]
      simp [safe_digits, hs, Nat.add_assoc]
    · simp only [try_digits, hs, if_false]
      rw [ih n]
      simp [safe_digits, hs]

theorem try_digits_solve (L : Board → List Board) (f : Board → List Board → List Board × Board)
    (p : Nat) (hf : ∀ b acc, f b acc = (acc ++ L b, b)) (ds : List Nat) (acc : List Board)
    (b : Board) (hb : cell b p = EMPTY) :
    try_digits f p ds acc b =
      (acc ++ ((safe_digits b p ds).map fun d => L (set_digit b p d)).flatten, b) := by
  induction ds generalizing acc with
  | nil => simp [try_digits, safe_digits]
  | cons d rest ih =>
    by_cases hs : is_safe b (get_row_for p) (get_col_for p) d = true
    · have hres : set_digit (set_digit b p d) p EMPTY = b := by
        rw [set_digit_set_digit, ← hb, set_digit_cell]
      simp only [try_digits, hs, if_true, hf]
      rw [hres, ih _]
      simp [safe_digits, hs]
    · simp only [try_digits, hs, if_false]
      rw [ih acc]
      simp [safe_digits, hs]

theorem solve_go_acc (gs : List Nat) (fuel : Nat) (b : Board) (acc : List Board) :
    (solve_go gs fuel b acc).2.1 = acc ++ (solve_go gs fuel b []).2.1 := by
  induction fuel generalizing b acc with
  | zero => simp [solve_go]
  | succ fuel ih =>
    cases h : find_free_cell b with
    | none => simp [solve_go, h]
    | some p =>
      have hf : ∀ (b : Board) (acc : List Board),
          (let r := solve_go gs fuel b acc
           (r.2.1, r.2.2)) = (acc ++ (solve_go gs fuel b []).2.1, b) := by
        intro b acc
        simp only []
        rw [ih, solve_go_board]
      simp only [solve_go, h]
      rw [try_digits_solve _ _ p hf gs acc b (find_free_cell_spec b p h).2,
        try_digits_solve _ _ p hf gs [] b (find_free_cell_spec b p h).2]
      simp

/-- The boards the source pushes onto solved_boards_ during one solve call,
starting from an empty accumulator. -/
def solutions (gs : List Nat) (fuel : Nat) (b : Board) : List Board :=
  (solve_go gs fuel b []).2.1

theorem count_solutions_go_eq_length (gs : List Nat) (fuel : Nat) (b : Board) (n : Nat) :
    count_solutions_go gs fuel b n = (n + (solutions gs fuel b).length, b) := by
  induction fuel generalizing b n with
  | zero => simp [count_solutions_go, solutions, solve_go]
  | succ fuel ih =>
    cases h : find_free_cell b with
    | none => simp [count_solutions_go, solutions, solve_go, h]
    | some p =>
      have hb := (find_free_cell_spec b p h).2
      have hf : ∀ (b : Board) (acc : List Board),
          (let r := solve_go gs fuel b acc
           (r.2.1, r.2.2)) = (acc ++ solutions gs fuel b, b) := by
        intro b acc
        simp only []
        rw [solve_go_acc, solve_go_board]
        rfl
      simp only [count_solutions_go, h]
      rw [try_digits_count (fun b => (solutions gs fuel b).length) _ p
        (fun b n => by rw [ih]) gs n b hb]
      simp only [solutions, solve_go, h]
      rw [try_digits_solve _ _ p hf gs [] b hb]
      simp only [List.nil_append, List.length_flatten, List.map_map]
      rfl

theorem solution_count_eq_length (gs : List Nat) (b : Board) :
    solution_count gs b = (solutions gs (empty_count b + 1) b).length := by
  simp [solution_count, count_solutions_go_eq_length]

/-- The final counter of count_solutions_limited is the initial counter plus
the full solution count: no branch is ever skipped. -/
theorem count_solutions_limited_go_counter (gs : List Nat) (fuel : Nat) (b : Board) (n : Nat) :
    (count_solutions_limited_go gs fuel b n).2.1 = n + (solutions gs fuel b).length := by
  rw [count_solutions_limited_go_eq, count_solutions_go_eq_length]

theorem has_one_clear_solution_of_full (gs : List Nat) (b : Board)
    (h : find_free_cell b = none) : (has_one_clear_solution gs b).1 = false := by
  simp [has_one_clear_solution, count_solutions_limited_go, h]

theorem has_one_clear_solution_of_free (gs : List Nat) (b : Board) (p : Nat)
    (h : find_free_cell b = some p) :
    (has_one_clear_solution gs b).1 = decide (solution_count gs b = 1) := by
  have hproj : (count_solutions_limited_go gs (empty_count b + 1) b 0).1 =
      decide ((count_solutions_limited_go gs (empty_count b + 1) b 0).2.1 = 1) := by
    simp only [count_solutions_limited_go, h]
  simp only [has_one_clear_solution]
  rw [hproj, count_solutions_limited_go_counter, solution_count_eq_length]
  simp

/-! ### Declarative sudoku semantics

These definitions state, independently of the solver code, what a
constraint-satisfying complete assignment of a partial board is.  They
follow the data-model section of the specification: no digit appears twice
in any row, column or box among non-empty cells. -/

/-- Two flattened indices share a unit: same row, same column, or same box. -/
def same_unit (p q : Nat) : Prop :=
  get_row_for p = get_row_for q ∨ get_col_for p = get_col_for q ∨
    get_box_for p = get_box_for q

instance (p q : Nat) : Decidable (same_unit p q) := by
  unfold same_unit
  exact inferInstance

/-- No digit appears twice in any unit among non-empty cells. -/
def no_duplicates (b : Board) : Prop :=
  ∀ p < 81, ∀ q < 81, p ≠ q → same_unit p q → cell b p ≠ EMPTY → cell b p ≠ cell b q

instance (b : Board) : Decidable (no_duplicates b) := by
  unfold no_duplicates
  exact Nat.decidableBallLT 81 _

/-- Every cell holds EMPTY or a digit one through nine. -/
def cells_valid (b : Board) : Prop := ∀ p < 81, cell b p ≤ 9

instance (b : Board) : Decidable (cells_valid b) := by
  unfold cells_valid
  exact inferInstance

/-- No cell is EMPTY. -/
def is_complete (b : Board) : Prop := ∀ p < 81, cell b p ≠ EMPTY

instance (b : Board) : Decidable (is_complete b) := by
  unfold is_complete
  exact inferInstance

/-- a agrees with b on every non-empty cell of b. -/
def extends_board (b a : Board) : Prop :=
  ∀ p < 81, cell b p ≠ EMPTY → cell a p = cell b p

instance (b a : Board) : Decidable (extends_board b a) := by
  unfold extends_board
  exact inferInstance

/-- A complete constraint-satisfying assignment of the partial board b. -/
def complete_valid_ext (b a : Board) : Prop :=
  a.length = 81 ∧ cells_valid a ∧ (∀ p < 81, cell a p ≠ EMPTY) ∧
    no_duplicates a ∧ extends_board b a

instance (b a : Board) : Decidable (complete_valid_ext b a) := by
  unfold complete_valid_ext
  exact inferInstance

/-- The flattened indices the is_safe scan visits are exactly the indices
sharing a unit with p. -/
theorem is_safe_iff (b : Board) (p d : Nat) (hp : p < 81) :
    is_safe b (get_row_for p) (get_col_for p) d = true ↔
      ∀ q < 81, same_unit p q → cell b q ≠ d := by
  have hrow : get_row_for p = p / 9 := rfl
  have hcol : get_col_for p = p % 9 := rfl
  simp only [is_safe, List.all_eq_true, List.mem_range, Bool.and_eq_true, bne_iff_ne,
    ne_eq, get, index_for, hrow, hcol]
  constructor
  · rintro ⟨h1, h2⟩ q hq hu
    rcases hu with hu | hu | hu
    · have hq9 : q % 9 < 9 := Nat.mod_lt _ (by omega)
      have := (h1 (q % 9) hq9).1
      have hqe : p / 9 * 9 + q % 9 = q := by
        simp only [get_row_for] at hu
        omega
      rwa [hqe] at this
    · have hq9 : q / 9 < 9 := by omega
      have := (h1 (q / 9) hq9).2
      have hqe : q / 9 * 9 + p % 9 = q := by
        simp only [get_col_for] at hu
        omega
      rwa [hqe] at this
    · simp only [get_box_for, get_row_for, get_col_for] at hu
      have hpr : p / 9 < 9 := by omega
      have hqr : q / 9 < 9 := by omega
      have hpc : p % 9 < 9 := by omega
      have hqc : q % 9 < 9 := by omega
      have hbr : p / 9 / 3 = q / 9 / 3 := by omega
      have hbc : p % 9 / 3 = q % 9 / 3 := by omega
      have hi : q / 9 - (p / 9 - p / 9 % 3) < 3 := by omega
      have hj : q % 9 - (p % 9 - p % 9 % 3) < 3 := by omega
      have := h2 (q / 9 - (p / 9 - p / 9 % 3)) hi (q % 9 - (p % 9 - p % 9 % 3)) hj
      have hqe : (p / 9 - p / 9 % 3 + (q / 9 - (p / 9 - p / 9 % 3))) * 9 +
          (p % 9 - p % 9 % 3 + (q % 9 - (p % 9 - p % 9 % 3))) = q := by
        omega
      rwa [hqe] at this
  · intro h
    refine ⟨fun i hi => ⟨?_, ?_⟩, fun i hi j hj => ?_⟩
    · refine h (p / 9 * 9 + i) (by omega) (Or.inl ?_)
      simp only [get_row_for]
      omega
    · refine h (i * 9 + p % 9) (by omega) (Or.inr (Or.inl ?_))
      simp only [get_col_for]
      omega
    · refine h ((p / 9 - p / 9 % 3 + i) * 9 + (p % 9 - p % 9 % 3 + j)) (by omega)
        (Or.inr (Or.inr ?_))
      simp only [get_box_for, get_row_for, get_col_for]
      omega

/-! ### Placements preserve the board invariants -/

theorem empty_count_pos (b : Board) (p : Nat) (hp : p < b.length)
    (hb : cell b p = EMPTY) : 0 < empty_count b := by
  have h0 : b.getD p 0 = 0 := hb
  rw [List.getD_eq_getElem b 0 hp] at h0
  have hmem : (0 : Nat) ∈ b := h0 ▸ List.getElem_mem hp
  exact List.countP_pos_iff.mpr ⟨0, hmem, by simp [EMPTY]⟩

theorem empty_count_set_digit (b : Board) (p d : Nat) (hp : p < b.length)
    (hb : cell b p = EMPTY) (hd : d ≠ EMPTY) :
    empty_count (set_digit b p d) + 1 = empty_count b := by
  induction b generalizing p with
  | nil => simp at hp
  | cons c t ih =>
    cases p with
    | zero =>
      have hc : c = 0 := hb
      subst hc
      have hd0 : ¬ ((d == 0) = true) := by simpa [EMPTY] using hd
      have hset : set_digit (0 :: t) 0 d = d :: t := rfl
      rw [hset]
      simp [empty_count, List.countP_cons, hd0, EMPTY]
    | succ q =>
      have hq : q < t.length := by simpa using hp
      have hbq : cell t q = EMPTY := hb
      have hih := ih q hq hbq
      have hset : set_digit (c :: t) (q + 1) d = c :: set_digit t q d := rfl
      rw [hset]
      simp only [empty_count, List.countP_cons] at hih ⊢
      omega

theorem set_digit_of_length_le (b : Board) (p d : Nat) (h : b.length ≤ p) :
    set_digit b p d = b := by
  induction b generalizing p with
  | nil => rfl
  | cons c t ih =>
    cases p with
    | zero => simp at h
    | succ q => exact congrArg (c :: ·) (ih q (by simpa using h))

theorem cells_valid_set_digit (b : Board) (p d : Nat) (hd : d ≤ 9)
    (hv : cells_valid b) : cells_valid (set_digit b p d) := by
  intro q hq
  by_cases hpq : p = q
  · subst hpq
    by_cases hlt : p < b.length
    · rw [cell_set_digit_same b p d hlt]
      exact hd
    · rw [set_digit_of_length_le b p d (by omega)]
      exact hv p hq
  · rw [cell_set_digit_other b p q d hpq]
    exact hv q hq

theorem no_duplicates_set_digit (b : Board) (p d : Nat) (hp : p < 81)
    (hb : cell b p = EMPTY) (hd : d ≠ EMPTY) (hlen : b.length = 81)
    (hsafe : is_safe b (get_row_for p) (get_col_for p) d = true)
    (hnd : no_duplicates b) : no_duplicates (set_digit b p d) := by
  have hkey := (is_safe_iff b p d hp).mp hsafe
  intro q hq r hr hqr hu hne
  by_cases hqp : q = p
  · have hrp : r ≠ p := fun h => hqr (hqp.trans h.symm)
    rw [cell_set_digit_other b p r d (fun h => hrp h.symm), hqp,
      cell_set_digit_same b p d (by omega)]
    exact fun h => hkey r hr (hqp ▸ hu : same_unit p r) h.symm
  · rw [cell_set_digit_other b p q d (fun h => hqp h.symm)] at hne ⊢
    by_cases hrp : r = p
    · rw [hrp, cell_set_digit_same b p d (by omega)]
      have hu2 : same_unit p q := by
        rcases (hrp ▸ hu : same_unit q p) with h1 | h1 | h1
        · exact Or.inl h1.symm
        · exact Or.inr (Or.inl h1.symm)
        · exact Or.inr (Or.inr h1.symm)
      exact hkey q hq hu2
    · rw [cell_set_digit_other b p r d (fun h => hrp h.symm)]
      exact hnd q hq r hr hqr hu hne

theorem safe_of_ext (b a : Board) (p : Nat) (hp : p < 81) (hb : cell b p = EMPTY)
    (hext : complete_valid_ext b a) :
    is_safe b (get_row_for p) (get_col_for p) (cell a p) = true := by
  obtain ⟨hlen, hv, hcomp, hnd, hagree⟩ := hext
  refine (is_safe_iff b p (cell a p) hp).mpr fun q hq hu => ?_
  by_cases hqp : q = p
  · subst hqp
    rw [hb]
    exact fun h => hcomp q hq h.symm
  · by_cases hbq : cell b q = EMPTY
    · rw [hbq]
      exact fun h => hcomp p hp h.symm
    · rw [← hagree q hq hbq]
      intro h
      exact hnd p hp q hq (fun h2 => hqp h2.symm) hu (hcomp p hp) h.symm

theorem ext_set_digit_iff (b a : Board) (p d : Nat) (hp : p < 81)
    (hb : cell b p = EMPTY) (hd : d ≠ EMPTY) (hlen : b.length = 81) :
    complete_valid_ext (set_digit b p d) a ↔ complete_valid_ext b a ∧ cell a p = d := by
  have hpd : cell (set_digit b p d) p = d := cell_set_digit_same b p d (by omega)
  constructor
  · rintro ⟨h1, h2, h3, h4, h5⟩
    have hap : cell a p = d := by
      have := h5 p hp (by rw [hpd]; exact hd)
      rwa [hpd] at this
    refine ⟨⟨h1, h2, h3, h4, fun q hq hbq => ?_⟩, hap⟩
    have hqp : q ≠ p := fun h => hbq (h ▸ hb)
    have := h5 q hq (by rwa [cell_set_digit_other b p q d (fun h => hqp h.symm)])
    rwa [cell_set_digit_other b p q d (fun h => hqp h.symm)] at this
  · rintro ⟨⟨h1, h2, h3, h4, h5⟩, hap⟩
    refine ⟨h1, h2, h3, h4, fun q hq hbq => ?_⟩
    by_cases hqp : q = p
    · subst hqp
      rw [hpd, hap]
    · rw [cell_set_digit_other b p q d (fun h => hqp h.symm)] at hbq ⊢
      exact h5 q hq hbq

theorem ext_self_of_complete (b : Board) (hlen : b.length = 81) (hv : cells_valid b)
    (hcomp : ∀ p < 81, cell b p ≠ EMPTY) (hnd : no_duplicates b) :
    complete_valid_ext b b :=
  ⟨hlen, hv, hcomp, hnd, fun _ _ _ => rfl⟩

theorem ext_of_complete_eq (b a : Board) (hlen : b.length = 81)
    (hcomp : ∀ p < 81, cell b p ≠ EMPTY) (h : complete_valid_ext b a) : a = b := by
  obtain ⟨h1, _, _, _, h5⟩ := h
  apply List.ext_getElem (by omega)
  intro i hi1 hi2
  have hi : i < 81 := by omega
  have := h5 i hi (hcomp i hi)
  rwa [cell, cell, List.getD_eq_getElem a EMPTY hi1, List.getD_eq_getElem b EMPTY hi2] at this

/-! ### The solutions list is exactly the set of complete valid extensions -/

theorem solutions_of_full (gs : List Nat) (fuel : Nat) (b : Board)
    (h : find_free_cell b = none) : solutions gs (fuel + 1) b = [b] := by
  simp [solutions, solve_go, h]

theorem solutions_of_free (gs : List Nat) (fuel : Nat) (b : Board) (p : Nat)
    (h : find_free_cell b = some p) :
    solutions gs (fuel + 1) b =
      ((safe_digits b p gs).map fun d => solutions gs fuel (set_digit b p d)).flatten := by
  have hb := (find_free_cell_spec b p h).2
  have hf : ∀ (b : Board) (acc : List Board),
      (let r := solve_go gs fuel b acc
       (r.2.1, r.2.2)) = (acc ++ solutions gs fuel b, b) := by
    intro b acc
    simp only []
    rw [solve_go_acc, solve_go_board]
    rfl
  simp only [solutions, solve_go, h]
  rw [try_digits_solve _ _ p hf gs [] b hb]
  simp [solutions]

theorem mem_digit_list (d : Nat) :
    d ∈ ([1, 2, 3, 4, 5, 6, 7, 8, 9] : List Nat) ↔ 1 ≤ d ∧ d ≤ 9 := by
  simp only [List.mem_cons, List.not_mem_nil, or_false]
  omega

theorem nodup_flatten_keyed (f : Nat → List Board) (key : Board → Nat) :
    ∀ ds : List Nat, (∀ d ∈ ds, (f d).Nodup) → (∀ d ∈ ds, ∀ a ∈ f d, key a = d) →
      ds.Nodup → ((ds.map f).flatten).Nodup := by
  intro ds
  induction ds with
  | nil => intro _ _ _; simp
  | cons d rest ih =>
    intro hn hk hds
    simp only [List.map_cons, List.flatten_cons]
    rw [List.nodup_append]
    refine ⟨hn d (by simp), ih (fun e he => hn e (by simp [he]))
      (fun e he => hk e (by simp [he])) (List.Nodup.of_cons hds), ?_⟩
    intro a ha ha'
    have hkd : key a = d := hk d (by simp) a ha
    obtain ⟨l, hl, hal⟩ := List.mem_flatten.mp ha'
    obtain ⟨e, he, rfl⟩ := List.mem_map.mp hl
    have hke : key a = e := hk e (by simp [he]) a hal
    have : d ≠ e := by
      intro hde
      subst hde
      exact (List.nodup_cons.mp hds).1 he
    exact this (hkd ▸ hke)

theorem solutions_correct (gs : List Nat) (hgs : gs.Perm [1, 2, 3, 4, 5, 6, 7, 8, 9]) :
    ∀ fuel b, b.length = 81 → cells_valid b → no_duplicates b → empty_count b < fuel →
      (∀ a, a ∈ solutions gs fuel b ↔ complete_valid_ext b a) ∧
        (solutions gs fuel b).Nodup := by
  intro fuel
  induction fuel with
  | zero => intro b _ _ _ hfuel; omega
  | succ fuel ih =>
    intro b hlen hv hnd hfuel
    cases h : find_free_cell b with
    | none =>
      rw [solutions_of_full gs fuel b h]
      have hcomp : ∀ p < 81, cell b p ≠ EMPTY := (find_free_cell_eq_none b).mp h
      constructor
      · intro a
        simp only [List.mem_singleton]
        constructor
        · intro ha
          rw [ha]
          exact ext_self_of_complete b hlen hv hcomp hnd
        · exact ext_of_complete_eq b a hlen hcomp
      · simp
    | some p =>
      obtain ⟨hp, hb⟩ := find_free_cell_spec b p h
      rw [solutions_of_free gs fuel b p h]
      have hd_facts : ∀ d ∈ safe_digits b p gs, 1 ≤ d ∧ d ≤ 9 ∧
          is_safe b (get_row_for p) (get_col_for p) d = true := by
        intro d hd
        have hmem := List.mem_of_mem_filter hd
        have hsafe := List.of_mem_filter hd
        have := (mem_digit_list d).mp (hgs.mem_iff.mp hmem)
        exact ⟨this.1, this.2, hsafe⟩
      have hbranch : ∀ d ∈ safe_digits b p gs,
          (∀ a, a ∈ solutions gs fuel (set_digit b p d) ↔
            complete_valid_ext (set_digit b p d) a) ∧
          (solutions gs fuel (set_digit b p d)).Nodup := by
        intro d hd
        obtain ⟨hd1, hd9, hsafe⟩ := hd_facts d hd
        have hdne : d ≠ EMPTY := by simp [EMPTY]; omega
        have hplen : p < b.length := by omega
        refine ih (set_digit b p d) (by rw [length_set_digit]; exact hlen)
          (cells_valid_set_digit b p d hd9 hv)
          (no_duplicates_set_digit b p d hp hb hdne hlen hsafe hnd) ?_
        have := empty_count_set_digit b p d hplen hb hdne
        have := empty_count_pos b p hplen hb
        omega
      constructor
      · intro a
        rw [List.mem_flatten]
        constructor
        · rintro ⟨l, hl, hal⟩
          obtain ⟨d, hd, rfl⟩ := List.mem_map.mp hl
          have := ((hbranch d hd).1 a).mp hal
          obtain ⟨hd1, hd9, hsafe⟩ := hd_facts d hd
          exact (ext_set_digit_iff b a p d hp hb (by simp [EMPTY]; omega) hlen).mp this |>.1
        · intro hext
          have hcomp := hext.2.2.1
          have hvala := hext.2.1
          set d := cell a p with hdv
          have hd1 : 1 ≤ d := by
            have := hcomp p hp
            simp only [EMPTY] at this
            omega
          have hd9 : d ≤ 9 := hvala p hp
          have hdgs : d ∈ gs := hgs.mem_iff.mpr ((mem_digit_list d).mpr ⟨hd1, hd9⟩)
          have hsafe := safe_of_ext b a p hp hb hext
          have hdmem : d ∈ safe_digits b p gs := List.mem_filter.mpr ⟨hdgs, hsafe⟩
          refine ⟨solutions gs fuel (set_digit b p d), List.mem_map.mpr ⟨d, hdmem, rfl⟩, ?_⟩
          refine ((hbranch d hdmem).1 a).mpr ?_
          exact (ext_set_digit_iff b a p d hp hb (by simp [EMPTY]; omega) hlen).mpr ⟨hext, rfl⟩
      · refine nodup_flatten_keyed _ (fun a => cell a p) (safe_digits b p gs)
          (fun d hd => (hbranch d hd).2) (fun d hd a ha => ?_) ?_
        · have := ((hbranch d hd).1 a).mp ha
          obtain ⟨hd1, hd9, hsafe⟩ := hd_facts d hd
          exact ((ext_set_digit_iff b a p d hp hb (by simp [EMPTY]; omega) hlen).mp this).2
        · exact List.Nodup.filter _ (hgs.nodup_iff.mpr (by decide))

/-! ### Concrete boards used as test inputs -/

/-- The guess digits in their initial (unshuffled) order. -/
def digits_in_order : List Nat := [1, 2, 3, 4, 5, 6, 7, 8, 9]

/-- A complete constraint-satisfying 81-cell grid. -/
def demo_grid : Board :=
  [8, 7, 3, 5, 6, 9, 2, 4, 1,
   6, 2, 5, 1, 3, 4, 9, 8, 7,
   1, 4, 9, 2, 7, 8, 3, 5, 6,
   9, 3, 1, 8, 5, 7, 6, 2, 4,
   7, 8, 2, 4, 9, 6, 5, 1, 3,
   4, 5, 6, 3, 2, 1, 7, 9, 8,
   5, 9, 8, 7, 1, 3, 4, 6, 2,
   3, 6, 4, 9, 8, 2, 1, 7, 5,
   2, 1, 7, 6, 4, 5, 8, 3, 9]

/-- demo_grid with eight cells cleared; the resulting puzzle has exactly
three complete constraint-satisfying assignments. -/
def three_solution_board : Board :=
  [0, 0, 3, 5, 6, 9, 2, 4, 1,
   6, 2, 5, 1, 3, 4, 9, 8, 7,
   1, 4, 9, 0, 7, 8, 3, 5, 6,
   9, 3, 1, 8, 5, 7, 6, 2, 4,
   0, 0, 0, 4, 9, 6, 5, 1, 3,
   4, 5, 6, 3, 2, 1, 7, 9, 8,
   5, 9, 8, 7, 1, 3, 4, 6, 2,
   3, 6, 4, 9, 8, 2, 1, 7, 5,
   0, 1, 0, 6, 4, 5, 8, 3, 9]

/-- demo_grid with the centre cell cleared: one empty cell, unique solution. -/
def one_empty_board : Board := set_digit demo_grid 40 EMPTY

/-! ### Claim C1 -/

/-- C1: the specification asserts that count_solutions_limited stops the
entire backtracking search as soon as the counter exceeds 1, so the counter
could never pass 2.  On three_solution_board (which has exactly three
complete assignments) the final counter is 3: a third complete assignment
is still counted after the second one, so the search went on placing digits
and descending after the counter exceeded 1.  This refutes the claim. -/
theorem C1_counterexample :
    (count_solutions_limited_go digits_in_order
        (empty_count three_solution_board + 1) three_solution_board 0).2.1 = 3 ∧
      solution_count digits_in_order three_solution_board = 3 := by
  constructor
  · decide
  · decide

/-- C1 amended: the search never cuts off.  count_solutions_limited performs
the same complete traversal as the exhaustive solver: for every guess list,
fuel, board and starting counter, the final counter equals the starting
counter plus the total number of complete assignments the exhaustive search
reaches (the length of the solved_boards list solve would produce). -/
theorem C1_full_traversal (gs : List Nat) (fuel : Nat) (b : Board) (n : Nat) :
    (count_solutions_limited_go gs fuel b n).2.1 = n + (solutions gs fuel b).length := by
  rw [count_solutions_limited_go_eq, count_solutions_go_eq_length]

/-! ### Claim C2 -/

/-- C2: the specification asserts that has_one_clear_solution returns true
iff exactly one complete assignment exists, including on completely filled
boards.  demo_grid is completely filled, duplicate-free and has exactly one
complete constraint-satisfying assignment (itself), yet the function
returns false, because the no-free-cell branch returns (++n > 1) which is
(1 > 1) = false on the initial call. -/
theorem C2_counterexample :
    no_duplicates demo_grid ∧ (∃! a, complete_valid_ext demo_grid a) ∧
      (has_one_clear_solution digits_in_order demo_grid).1 = false := by
  refine ⟨by decide, ⟨demo_grid, by decide, fun y hy => ?_⟩, by decide⟩
  exact ext_of_complete_eq demo_grid y (by decide) (by decide) hy

/-- C2 amended: for boards whose non-empty cells contain no duplicated digit
in any unit, whose cells are all EMPTY or digits one through nine, and with
the guess list a permutation of the nine digits: if at least one cell is
EMPTY, has_one_clear_solution returns true iff exactly one complete
constraint-satisfying assignment exists; on a completely filled board it
returns false even though exactly one such assignment (the board itself)
exists. -/
theorem C2_unique_solution_iff (gs : List Nat) (b : Board)
    (hgs : gs.Perm [1, 2, 3, 4, 5, 6, 7, 8, 9]) (hlen : b.length = 81)
    (hv : cells_valid b) (hnd : no_duplicates b) :
    ((∃ p < 81, cell b p = EMPTY) →
      ((has_one_clear_solution gs b).1 = true ↔ ∃! a, complete_valid_ext b a)) ∧
    (is_complete b →
      (has_one_clear_solution gs b).1 = false ∧ (∃! a, complete_valid_ext b a)) := by
  constructor
  · rintro ⟨p, hp, hpe⟩
    obtain ⟨q, hq⟩ := Option.isSome_iff_exists.mp (find_free_cell_isSome b p hp hpe)
    rw [has_one_clear_solution_of_free gs b q hq, decide_eq_true_eq,
      solution_count_eq_length]
    obtain ⟨hmem, hnodup⟩ :=
      solutions_correct gs hgs (empty_count b + 1) b hlen hv hnd (by omega)
    constructor
    · intro hone
      obtain ⟨a, ha⟩ := List.length_eq_one.mp hone
      refine ⟨a, (hmem a).mp (by simp [ha]), fun y hy => ?_⟩
      have hmy := (hmem y).mpr hy
      rw [ha] at hmy
      simpa using hmy
    · rintro ⟨a0, ha0, huniq⟩
      have hmem0 := (hmem a0).mpr ha0
      cases hsols : solutions gs (empty_count b + 1) b with
      | nil =>
        rw [hsols] at hmem0
        simp at hmem0
      | cons x t =>
        cases t with
        | nil => simp
        | cons y t2 =>
          exfalso
          have hx := (hmem x).mp (by simp [hsols])
          have hy := (hmem y).mp (by simp [hsols])
          have hxy : x = y := (huniq x hx).trans (huniq y hy).symm
          rw [hsols] at hnodup
          rcases List.nodup_cons.mp hnodup with ⟨hxnot, _⟩
          exact hxnot (by simp [hxy])
  · intro hcomp
    have hnone : find_free_cell b = none :=
      (find_free_cell_eq_none b).mpr fun p hp => hcomp p hp
    refine ⟨has_one_clear_solution_of_full gs b hnone, ?_⟩
    exact ⟨b, ext_self_of_complete b hlen hv hcomp hnd,
      fun y hy => ext_of_complete_eq b y hlen hcomp hy⟩

/-- Witness for C2 amended, at the concrete one-empty board: the board has
an EMPTY cell at index 40, the hypotheses hold by evaluation, the function
returns true there, and the theorem then yields the unique assignment. -/
theorem C2_unique_solution_iff_witness :
    (has_one_clear_solution digits_in_order one_empty_board).1 = true ∧
      (∃! a, complete_valid_ext one_empty_board a) := by
  have h := (C2_unique_solution_iff digits_in_order one_empty_board
    (by decide) (by decide) (by decide) (by decide)).1 ⟨40, by decide, by decide⟩
  have hres : (has_one_clear_solution digits_in_order one_empty_board).1 = true := by decide
  exact ⟨hres, h.mp hres⟩

/-! ### Claims C7, C8, C10 -/

/-- demo_grid with three corners of an unavoidable rectangle cleared (cells
0, 1, 36): still uniquely solvable; clearing cell 37 as well would leave two
solutions. -/
def rect_board : Board :=
  set_digit (set_digit (set_digit demo_grid 0 EMPTY) 1 EMPTY) 36 EMPTY

/-- The carve step of the generator threads in main.cpp: save the cell,
clear it, test uniqueness, and write the saved value back when the test is
negative.  The board the test leaves behind (r.2) is the board the source
keeps working on. -/
def carve_step (gs : List Nat) (b : Board) (pos : Nat) : Board :=
  let cell_copy := cell b pos
  let b1 := set_digit b pos EMPTY
  let r := has_one_clear_solution gs b1
  if r.1 then r.2 else set_digit r.2 pos cell_copy

/-- C7: the uniqueness test undoes every placement it makes (its final board
equals the board it was called on), hence the carve step restores the board
byte-identically whenever the clear is reverted. -/
theorem C7_carve_revert (gs : List Nat) (b : Board) (pos : Nat) :
    (has_one_clear_solution gs (set_digit b pos EMPTY)).2 = set_digit b pos EMPTY ∧
      ((has_one_clear_solution gs (set_digit b pos EMPTY)).1 = false →
        carve_step gs b pos = b) := by
  refine ⟨has_one_clear_solution_board gs _, fun hneg => ?_⟩
  simp only [carve_step, hneg, if_false, Bool.false_eq_true]
  rw [has_one_clear_solution_board gs _, set_digit_set_digit, set_digit_cell]

/-- Witness for C7 at a concrete reverted clear: clearing cell 37 of
rect_board destroys uniqueness, so the clear is reverted and the board is
restored exactly. -/
theorem C7_carve_revert_witness :
    (has_one_clear_solution digits_in_order (set_digit rect_board 37 EMPTY)).1 = false ∧
      carve_step digits_in_order rect_board 37 = rect_board := by
  have h := C7_carve_revert digits_in_order rect_board 37
  have hneg : (has_one_clear_solution digits_in_order
      (set_digit rect_board 37 EMPTY)).1 = false := by decide
  exact ⟨hneg, h.2 hneg⟩

/-- C8: has_one_clear_solution leaves the board unchanged, so calling it
twice in succession on the same board with the same guess order yields the
same boolean both times. -/
theorem C8_idempotent (gs : List Nat) (b : Board) :
    (has_one_clear_solution gs b).2 = b ∧
      (has_one_clear_solution gs ((has_one_clear_solution gs b).2)).1 =
        (has_one_clear_solution gs b).1 := by
  refine ⟨has_one_clear_solution_board gs b, ?_⟩
  rw [has_one_clear_solution_board gs b]

/-- C10: solve() returns true iff the board already has no EMPTY cell; when
an EMPTY cell exists it returns false, even though every complete
constraint-satisfying assignment found during the call is appended to
solved_boards_ (the second conjunct: the accumulator after the call is the
old accumulator plus the full solutions list). -/
theorem C10_solve_result (gs : List Nat) (b : Board) (acc : List Board) :
    ((solve gs b acc).1 = true ↔ ∀ p < 81, cell b p ≠ EMPTY) ∧
      (solve gs b acc).2.1 = acc ++ solutions gs (empty_count b + 1) b := by
  constructor
  · cases h : find_free_cell b with
    | none =>
      simp only [solve, solve_go, h]
      simpa using (find_free_cell_eq_none b).mp h
    | some p =>
      simp only [solve, solve_go, h]
      obtain ⟨hp, hc⟩ := find_free_cell_spec b p h
      simp only [Bool.false_eq_true, false_iff]
      intro hall
      exact hall p hp hc
  · exact solve_go_acc gs (empty_count b + 1) b acc

/-! ### The notes (candidate) layer

easy_set of digit characters becomes Finset Nat; the notes_ array becomes a
list of 81 Finsets read with getD.  easy_set is a std::unordered_set, so
only set membership is specified; the one place the source reads an element
out of a set directly (the obvious-single digit) reads from a singleton,
where the choice of element is forced.  Where the source iterates
ALL_DIGITS (an unordered hash set) we iterate the digits in ascending
order; none of the properties proved below depends on that order. -/

abbrev Notes := List (Finset Nat)

/-- Read the note set at a flattened index (notes_.at(idx)). -/
def note (ns : Notes) (idx : Nat) : Finset Nat := ns.getD idx ∅

/-- The element of a singleton candidate set (the source reads *begin(),
which on a singleton is its unique element; the fold computes that). -/
def first_elem (s : Finset Nat) : Nat := s.fold max 0 id

structure coord_t where
  row : Nat
  col : Nat
deriving DecidableEq

structure single_result_t where
  row : Nat
  col : Nat
  digit : Nat
deriving DecidableEq

inductive unit_t where
  | Row
  | Column
  | Box
deriving DecidableEq

structure pair_result_t where
  cell1 : coord_t
  cell2 : coord_t
  pair : Finset Nat
  unit_type : unit_t
  removed_count : Nat
deriving DecidableEq

open unit_t

/-- The flattened index of the k-th cell of a unit, as read by
get_notes_for_row, get_notes_for_col and get_notes_for_box. -/
def unit_cell_index (ut : unit_t) (ui k : Nat) : Nat :=
  match ut with
  | Row => ui * 9 + k
  | Column => k * 9 + ui
  | Box => (ui / 3 * 3 + k / 3) * 9 + (ui % 3 * 3 + k % 3)

/-- The (row, col) coordinate the source reports for the k-th cell of a
unit (the switch statements in the find functions). -/
def unit_coord (ut : unit_t) (ui k : Nat) : coord_t :=
  match ut with
  | Row => ⟨ui, k⟩
  | Column => ⟨k, ui⟩
  | Box => ⟨3 * (ui / 3) + k / 3, 3 * (ui % 3) + k % 3⟩

/-- sudoku.cpp get_notes_for_unit: the nine note sets of a unit. -/
def get_notes_for_unit (ut : unit_t) (ui : Nat) (ns : Notes) : List (Finset Nat) :=
  (List.range 9).map fun k => note ns (unit_cell_index ut ui k)

/-- sudoku.cpp calc_all_candidates: per-unit forbidden sets (the non-empty
digits of the unit), then for each empty cell ALL_DIGITS minus the three
forbidden sets of its row, column and box; filled cells get the empty set.
The initial clearing loop of the source iterates over value copies of the
note sets and has no effect; every entry is overwritten here anyway. -/
def calc_all_candidates (b : Board) : Notes :=
  let row_forbidden := fun (i : Nat) =>
    ((List.range 9).map fun c => cell b (i * 9 + c)).toFinset \ {EMPTY}
  let col_forbidden := fun (i : Nat) =>
    ((List.range 9).map fun r => cell b (r * 9 + i)).toFinset \ {EMPTY}
  let box_forbidden := fun (i : Nat) =>
    ((List.range 9).map fun k =>
      cell b ((i / 3 * 3 + k / 3) * 9 + (i % 3 * 3 + k % 3))).toFinset \ {EMPTY}
  (List.range 81).map fun i =>
    if cell b i = EMPTY then
      ((ALL_DIGITS \ row_forbidden (get_row_for i)) \ col_forbidden (get_col_for i)) \ box_forbidden (get_box_for i)
    else ∅

/-- sudoku.cpp eliminate_obvious_single: first cell in row-major order whose
note set has exactly one candidate; report its coordinates and that digit. -/
def eliminate_obvious_single (ns : Notes) : Option single_result_t :=
  (List.range 81).findSome? fun idx =>
    if (note ns idx).card = 1 then
      some ⟨get_row_for idx, get_col_for idx, first_elem (note ns idx)⟩
    else none

/-- sudoku.cpp find_first_hidden_single_in_unit: for each unit index and
each digit, if the digit occurs in exactly one note set of the unit, report
the first cell carrying it. -/
def find_first_hidden_single_in_unit (ut : unit_t) (ns : Notes) : Option single_result_t :=
  (List.range 9).findSome? fun ui =>
    let unit := get_notes_for_unit ut ui ns
    ((List.range 9).map (· + 1)).findSome? fun digit =>
      let digit_count := (unit.map fun s => if digit ∈ s then 1 else 0).sum
      if digit_count = 1 then
        (List.range 9).findSome? fun i =>
          if digit ∈ unit.getD i ∅ then
            some ⟨(unit_coord ut ui i).row, (unit_coord ut ui i).col, digit⟩
          else none
      else none

/-- sudoku.cpp find_first_hidden_single: rows, then columns, then boxes. -/
def find_first_hidden_single (ns : Notes) : Option single_result_t :=
  ([Row, Column, Box]).findSome? fun ut => find_first_hidden_single_in_unit ut ns

/-- One iteration target of the resolve_pair loops: a skip flag (the cell
matched cell1 or cell2 in the source coordinate comparison) and the
flattened notes index written to. -/
def resolve_pair_go (pair : Finset Nat) : List (Bool × Nat) → Nat × Notes → Nat × Notes
  | [], st => st
  | t :: rest, (rc, ns) =>
    if t.1 then resolve_pair_go pair rest (rc, ns)
    else
      resolve_pair_go pair rest
        (rc + ((note ns t.2).card - ((note ns t.2) \ pair).card),
          ns.set t.2 ((note ns t.2) \ pair))

/-- The skip-flag and notes-index list of the Row case of resolve_pair. -/
def row_targets (res : pair_result_t) : List (Bool × Nat) :=
  let row := res.cell1.row
  (List.range 9).map fun col =>
    (decide ((res.cell1.row = row ∧ res.cell1.col = col) ∨
      (res.cell2.row = row ∧ res.cell2.col = col)), row * 9 + col)

/-- The skip-flag and notes-index list of the Column case of resolve_pair. -/
def col_targets (res : pair_result_t) : List (Bool × Nat) :=
  let col := res.cell1.col
  (List.range 9).map fun row =>
    (decide ((res.cell1.row = row ∧ res.cell1.col = col) ∨
      (res.cell2.row = row ∧ res.cell2.col = col)), row * 9 + col)

/-- The skip-flag and notes-index list of the Box case of resolve_pair.
Faithful to the source bug: row_start and col_start are cell1.row / 3 and
cell1.col / 3 (not multiplied by 3), so the box index
row_start * 3 + col_start is the right box, but the coordinates compared
against cell1 and cell2 in the skip test are wrong outside the top-left
band and stripe.  The notes indices written to are the cells of the box
fetched by get_notes_for_box. -/
def box_targets (res : pair_result_t) : List (Bool × Nat) :=
  let row_start := res.cell1.row / 3
  let col_start := res.cell1.col / 3
  let box_idx := row_start * 3 + col_start
  let box_row := box_idx / 3 * 3
  let box_col := box_idx % 3 * 3
  ((List.range 3).map fun row_offset =>
    (List.range 3).map fun col_offset =>
      (decide ((res.cell1.row = row_start + row_offset ∧
          res.cell1.col = col_start + col_offset) ∨
        (res.cell2.row = row_start + row_offset ∧
          res.cell2.col = col_start + col_offset)),
        (box_row + row_offset) * 9 + (box_col + col_offset))).flatten

/-- sudoku.cpp resolve_pair: remove the pair digits from every non-skipped
cell of the unit, counting the candidates removed. -/
def resolve_pair (res : pair_result_t) (ns : Notes) : Nat × Notes :=
  match res.unit_type with
  | Row => resolve_pair_go res.pair (row_targets res) (0, ns)
  | Column => resolve_pair_go res.pair (col_targets res) (0, ns)
  | Box => resolve_pair_go res.pair (box_targets res) (0, ns)

/-- The cell index pairs (i, j) with i < j in the order the nested source
loops visit them. -/
def index_pairs : List (Nat × Nat) :=
  ((List.range 9).map fun i =>
    ((List.range 9).filter fun j => decide (i < j)).map fun j => (i, j)).flatten

/-- sudoku.cpp find_obvious_pair_in_unit: first cell pair (i, j) whose note
sets are both of size two and intersect in a set of size two (hence are the
same two-digit set). -/
def find_obvious_pair_in_unit (ut : unit_t) (ui : Nat) (ns : Notes) : Option pair_result_t :=
  let unit := get_notes_for_unit ut ui ns
  index_pairs.findSome? fun ij =>
    let c1 := unit.getD ij.1 ∅
    let c2 := unit.getD ij.2 ∅
    if c1.card = 0 ∧ c2.card = 0 then none
    else
      let pair := c1 ∩ c2
      if pair.card = 2 ∧ c1.card = 2 ∧ c2.card = 2 then
        some ⟨unit_coord ut ui ij.1, unit_coord ut ui ij.2, pair, ut, 0⟩
      else none

/-- sudoku.cpp find_hidden_pair_in_unit, faithful to the source: the
candidate counts select the digits occurring exactly twice; the pair is
always built from the first two such digits (the loop indices i, j are
ignored except by the Box coordinate report); the collected pair_cells are
the non-empty cells NOT containing the pair as a subset. -/
def find_hidden_pair_in_unit (ut : unit_t) (ui : Nat) (ns : Notes) : Option pair_result_t :=
  let unit := get_notes_for_unit ut ui ns
  let candidate_count := fun (i : Nat) =>
    (unit.map fun s => if i + 1 ∈ s then 1 else 0).sum
  let potential_pairs := (List.range 9).filter fun i => decide (candidate_count i = 2)
  if potential_pairs.length < 2 then none
  else
    index_pairs.findSome? fun ij =>
      let pair : Finset Nat := {potential_pairs.getD 0 0 + 1, potential_pairs.getD 1 0 + 1}
      let pair_cells := (List.range 9).filter fun k =>
        decide (unit.getD k ∅ ≠ ∅) && decide (¬ pair ⊆ unit.getD k ∅)
      let other := pair_cells.any fun k => decide (2 < (unit.getD k ∅).card)
      if pair_cells.length = 2 ∧ other = true then
        let c1i := pair_cells.getD 0 0
        let c2i := pair_cells.getD 1 0
        match ut with
        | Row => some ⟨⟨ui, c1i⟩, ⟨ui, c2i⟩, pair, ut, 0⟩
        | Column => some ⟨⟨c1i, ui⟩, ⟨c2i, ui⟩, pair, ut, 0⟩
        | Box => some ⟨⟨3 * (ui / 3) + ij.1 / 3, 3 * (ui % 3) + ij.1 % 3⟩,
            ⟨3 * (ui / 3) + ij.2 / 3, 3 * (ui % 3) + ij.2 % 3⟩, pair, ut, 0⟩
      else none

/-- The units in the order the two eliminate loops scan them. -/
def all_units_indexed : List (unit_t × Nat) :=
  (([Row, Column, Box]).map fun ut => (List.range 9).map fun ui => (ut, ui)).flatten

/-- The shared shape of eliminate_obvious_pair and eliminate_hidden_pair:
scan the units; on a find, resolve it (mutating the notes); return it if
any candidate was removed, otherwise keep scanning. -/
def eliminate_pair_go (find : unit_t → Nat → Notes → Option pair_result_t) :
    List (unit_t × Nat) → Notes → Option pair_result_t × Notes
  | [], ns => (none, ns)
  | u :: rest, ns =>
    match find u.1 u.2 ns with
    | none => eliminate_pair_go find rest ns
    | some res =>
      let r := resolve_pair res ns
      if 0 < r.1 then (some { res with removed_count := r.1 }, r.2)
      else eliminate_pair_go find rest r.2

/-- sudoku.cpp eliminate_obvious_pair. -/
def eliminate_obvious_pair (ns : Notes) : Option pair_result_t × Notes :=
  eliminate_pair_go find_obvious_pair_in_unit all_units_indexed ns

/-- sudoku.cpp eliminate_hidden_pair. -/
def eliminate_hidden_pair (ns : Notes) : Option pair_result_t × Notes :=
  eliminate_pair_go find_hidden_pair_in_unit all_units_indexed ns

/-- sudoku.cpp next_step: if solved return false; otherwise apply the first
applicable technique (obvious single, hidden single, obvious pair, hidden
pair) and return whether the board is still unsolved.  Confirmed singles
mutate the board and recompute all candidates; pair eliminations mutate
only the notes.  The resolutions ledger only counts techniques and is not
modelled (it does not feed back into the algorithm). -/
def next_step (b : Board) (ns : Notes) : Bool × Board × Notes :=
  if is_solved b then (false, b, ns)
  else
    match eliminate_obvious_single ns with
    | some r =>
      let b1 := set_digit b (index_for r.row r.col) r.digit
      (!is_solved b1, b1, calc_all_candidates b1)
    | none =>
      match find_first_hidden_single ns with
      | some r =>
        let b1 := set_digit b (index_for r.row r.col) r.digit
        (!is_solved b1, b1, calc_all_candidates b1)
      | none =>
        match eliminate_obvious_pair ns with
        | (some _, ns1) => (!is_solved b, b, ns1)
        | (none, ns1) =>
          match eliminate_hidden_pair ns1 with
          | (some _, ns2) => (!is_solved b, b, ns2)
          | (none, ns2) => (!is_solved b, b, ns2)

/-- The solve_like_a_human driving loop, indexed by an iteration budget:
returns true when some iteration of next_step returned false (the loop of
the source then exits), false when the budget is exhausted with next_step
still returning true at every step. -/
def slah_run : Nat → Board → Notes → Bool
  | 0, _, _ => false
  | k + 1, b, ns =>
    let r := next_step b ns
    if r.1 then slah_run k r.2.1 r.2.2 else true

/-! ### Lemmas about notes updates -/

theorem list_set_getD_self {α : Type} (l : List α) (i : Nat) (d : α) :
    l.set i (l.getD i d) = l := by
  induction l generalizing i with
  | nil => rfl
  | cons c t ih =>
    cases i with
    | zero => rfl
    | succ j => exact congrArg (c :: ·) (ih j)

theorem note_set_self_sdiff (ns : Notes) (q : Nat) (pair : Finset Nat) :
    note (ns.set q (note ns q \ pair)) q = note ns q \ pair := by
  by_cases h : q < ns.length
  · simp [note, List.getD, List.getElem?_set_self, h]
  · have h1 : ns.set q (note ns q \ pair) = ns := List.set_eq_of_length_le (by omega)
    have h2 : note ns q = ∅ := by
      simp [note, List.getD, List.getElem?_eq_none (by omega : ns.length ≤ q)]
    rw [h1, h2]
    simp

theorem note_set_other (ns : Notes) (q r : Nat) (s : Finset Nat) (h : q ≠ r) :
    note (ns.set q s) r = note ns r := by
  simp [note, List.getD, List.getElem?_set_ne h]

theorem resolve_pair_go_counter (pair : Finset Nat) :
    ∀ (ts : List (Bool × Nat)) (rc : Nat) (ns : Notes),
      rc ≤ (resolve_pair_go pair ts (rc, ns)).1 := by
  intro ts
  induction ts with
  | nil => intro rc ns; exact Nat.le_refl rc
  | cons t rest ih =>
    intro rc ns
    by_cases h : t.1 = true
    · simp only [resolve_pair_go, h, if_true]
      exact ih rc ns
    · have hfalse : t.1 = false := Bool.eq_false_iff.mpr h
      simp only [resolve_pair_go, hfalse, Bool.false_eq_true, if_false]
      exact Nat.le_trans (Nat.le_add_right rc _) (ih _ _)

theorem resolve_pair_go_zero (pair : Finset Nat) :
    ∀ (ts : List (Bool × Nat)) (rc : Nat) (ns : Notes),
      (resolve_pair_go pair ts (rc, ns)).1 = rc →
        (resolve_pair_go pair ts (rc, ns)).2 = ns := by
  intro ts
  induction ts with
  | nil => intro rc ns _; rfl
  | cons t rest ih =>
    intro rc ns hz
    by_cases h : t.1 = true
    · simp only [resolve_pair_go, h, if_true] at hz ⊢
      exact ih rc ns hz
    · have hfalse : t.1 = false := Bool.eq_false_iff.mpr h
      simp only [resolve_pair_go, hfalse, Bool.false_eq_true, if_false] at hz ⊢
      have hmono := resolve_pair_go_counter pair rest
        (rc + ((note ns t.2).card - ((note ns t.2) \ pair).card))
        (ns.set t.2 ((note ns t.2) \ pair))
      have hdelta : (note ns t.2).card - ((note ns t.2) \ pair).card = 0 := by omega
      have hsub : note ns t.2 \ pair = note ns t.2 := by
        refine Finset.eq_of_subset_of_card_le (Finset.sdiff_subset) ?_
        omega
      have hset : ns.set t.2 ((note ns t.2) \ pair) = ns := by
        rw [hsub]
        simpa [note] using list_set_getD_self ns t.2 ∅
      rw [hdelta, hset] at hz ⊢
      simp only [Nat.add_zero] at hz ⊢
      exact ih rc ns hz

theorem resolve_pair_zero (res : pair_result_t) (ns : Notes)
    (h : (resolve_pair res ns).1 = 0) : (resolve_pair res ns).2 = ns := by
  cases hu : res.unit_type with
  | Row =>
    simp only [resolve_pair, hu] at h ⊢
    exact resolve_pair_go_zero res.pair (row_targets res) 0 ns h
  | Column =>
    simp only [resolve_pair, hu] at h ⊢
    exact resolve_pair_go_zero res.pair (col_targets res) 0 ns h
  | Box =>
    simp only [resolve_pair, hu] at h ⊢
    exact resolve_pair_go_zero res.pair (box_targets res) 0 ns h

theorem eliminate_pair_go_none (find : unit_t → Nat → Notes → Option pair_result_t) :
    ∀ (us : List (unit_t × Nat)) (ns : Notes),
      (eliminate_pair_go find us ns).1 = none → (eliminate_pair_go find us ns).2 = ns := by
  intro us
  induction us with
  | nil => intro ns _; rfl
  | cons u rest ih =>
    intro ns hn
    cases hf : find u.1 u.2 ns with
    | none =>
      simp only [eliminate_pair_go, hf] at hn ⊢
      exact ih ns hn
    | some res =>
      simp only [eliminate_pair_go, hf] at hn ⊢
      by_cases hp : 0 < (resolve_pair res ns).1
      · simp only [hp, if_true] at hn
        simp at hn
      · have hz : (resolve_pair res ns).1 = 0 := by omega
        have hns := resolve_pair_zero res ns hz
        simp only [hp, if_false] at hn ⊢
        rw [hns] at hn ⊢
        exact ih ns hn

/-- Pointwise effect of the resolve_pair loop when the written indices are
distinct: a cell is changed exactly when it occurs as a non-skipped target,
and then it loses exactly the pair digits. -/
theorem resolve_pair_go_note (pair : Finset Nat) :
    ∀ (ts : List (Bool × Nat)) (rc : Nat) (ns : Notes) (q : Nat),
      (ts.map fun t => t.2).Nodup →
      note ((resolve_pair_go pair ts (rc, ns)).2) q =
        if (false, q) ∈ ts then note ns q \ pair else note ns q := by
  intro ts
  induction ts with
  | nil => intro rc ns q _; simp [resolve_pair_go]
  | cons t rest ih =>
    intro rc ns q hnd
    have hcons : (t.2 :: rest.map fun r => r.2).Nodup := by simpa using hnd
    have hhead : t.2 ∉ rest.map fun r => r.2 := (List.nodup_cons.mp hcons).1
    have htail : (rest.map fun r => r.2).Nodup := (List.nodup_cons.mp hcons).2
    by_cases h : t.1 = true
    · simp only [resolve_pair_go, h, if_true]
      rw [ih rc ns q htail]
      by_cases hm : (false, q) ∈ rest
      · rw [if_pos hm, if_pos (List.mem_cons.mpr (Or.inr hm))]
      · have hm2 : ¬ ((false, q) ∈ t :: rest) := by
          intro hmem
          rcases List.mem_cons.mp hmem with he | he
          · rw [← he] at h
            simp at h
          · exact hm he
        rw [if_neg hm, if_neg hm2]
    · have hfalse : t.1 = false := Bool.eq_false_iff.mpr h
      simp only [resolve_pair_go, hfalse, Bool.false_eq_true, if_false]
      by_cases hq : q = t.2
      · have hnotin : ¬ ((false, q) ∈ rest) := fun hmem =>
          hhead (List.mem_map.mpr ⟨(false, q), hmem, hq⟩)
        have hin : (false, q) ∈ t :: rest := by
          rw [List.mem_cons]
          left
          cases t with
          | mk tb ti =>
            simp only at hfalse hq
            rw [hfalse, hq]
        rw [ih _ _ q htail, if_neg hnotin, if_pos hin, hq]
        exact note_set_self_sdiff ns t.2 pair
      · have hne2 : ¬ ((false, q) ∈ t :: rest) ∨ ((false, q) ∈ rest) := by
          by_cases hm : (false, q) ∈ rest
          · exact Or.inr hm
          · refine Or.inl fun hmem => ?_
            rcases List.mem_cons.mp hmem with he | he
            · apply hq
              rw [← he]
            · exact hm he
        rw [ih _ _ q htail, note_set_other ns t.2 q _ (fun hh => hq hh.symm)]
        rcases hne2 with hm2 | hm
        · have hm : ¬ ((false, q) ∈ rest) := fun hmem =>
            hm2 (List.mem_cons.mpr (Or.inr hmem))
          rw [if_neg hm, if_neg hm2]
        · rw [if_pos hm, if_pos (List.mem_cons.mpr (Or.inr hm))]

/-! ### Shape of an obvious-pair find -/

theorem getD_map_range {α : Type} (f : Nat → α) (n i : Nat) (d : α) (h : i < n) :
    ((List.range n).map f).getD i d = f i := by
  rw [List.getD_eq_getElem _ d (by simpa using h)]
  simp

theorem mem_index_pairs (ij : Nat × Nat) :
    ij ∈ index_pairs ↔ ij.1 < 9 ∧ ij.2 < 9 ∧ ij.1 < ij.2 := by
  cases ij with
  | mk i j =>
    constructor
    · intro h
      obtain ⟨l, hl, hijl⟩ := List.mem_flatten.mp h
      obtain ⟨a, ha, rfl⟩ := List.mem_map.mp hl
      obtain ⟨b, hb, he⟩ := List.mem_map.mp hijl
      obtain ⟨hb9, hab⟩ := List.mem_filter.mp hb
      have h1 : a = i := congrArg Prod.fst he
      have h2 : b = j := congrArg Prod.snd he
      subst h1
      subst h2
      exact ⟨List.mem_range.mp ha, List.mem_range.mp hb9, by simpa using hab⟩
    · rintro ⟨hi, hj, hij⟩
      refine List.mem_flatten.mpr
        ⟨((List.range 9).filter fun b => decide (i < b)).map fun b => (i, b),
          List.mem_map.mpr ⟨i, List.mem_range.mpr hi, rfl⟩, ?_⟩
      exact List.mem_map.mpr
        ⟨j, List.mem_filter.mpr ⟨List.mem_range.mpr hj, by simpa using hij⟩, rfl⟩

theorem find_obvious_pair_shape (ut : unit_t) (ui : Nat) (ns : Notes) (res : pair_result_t)
    (h : find_obvious_pair_in_unit ut ui ns = some res) :
    ∃ i j, i < 9 ∧ j < 9 ∧ i < j ∧
      res = ⟨unit_coord ut ui i, unit_coord ut ui j,
        note ns (unit_cell_index ut ui i) ∩ note ns (unit_cell_index ut ui j), ut, 0⟩ ∧
      (note ns (unit_cell_index ut ui i)).card = 2 ∧
      (note ns (unit_cell_index ut ui j)).card = 2 ∧
      (note ns (unit_cell_index ut ui i) ∩ note ns (unit_cell_index ut ui j)).card = 2 := by
  obtain ⟨ij, hmem, hij⟩ := List.exists_of_findSome?_eq_some h
  obtain ⟨hi9, hj9, hij2⟩ := (mem_index_pairs ij).mp hmem
  refine ⟨ij.1, ij.2, hi9, hj9, hij2, ?_⟩
  simp only [get_notes_for_unit] at hij
  rw [getD_map_range _ 9 ij.1 ∅ hi9, getD_map_range _ 9 ij.2 ∅ hj9] at hij
  set c1 := note ns (unit_cell_index ut ui ij.1) with hc1
  set c2 := note ns (unit_cell_index ut ui ij.2) with hc2
  by_cases h1 : c1.card = 0 ∧ c2.card = 0
  · rw [if_pos h1] at hij
    simp at hij
  · rw [if_neg h1] at hij
    by_cases h2 : (c1 ∩ c2).card = 2 ∧ c1.card = 2 ∧ c2.card = 2
    · rw [if_pos h2] at hij
      have hres := Option.some.inj hij
      exact ⟨hres.symm, h2.2.1, h2.2.2, h2.1⟩
    · rw [if_neg h2] at hij
      simp at hij

/-! ### Claim C3 -/

/-- Notes state with an obvious pair inside box 4: cells (3,3) and (3,4)
(flattened indices 30 and 31) both carry exactly the candidates 1 and 2. -/
def box_pair_notes : Notes :=
  (List.range 81).map fun i => if i = 30 ∨ i = 31 then ({1, 2} : Finset Nat) else ∅

/-- C3: the claim says applying the obvious-pair technique leaves the two
pair cells untouched.  On box_pair_notes the technique fires on the Box
unit 4 (the row and column scans fire too but remove nothing), and the Box
case of resolve_pair compares the loop coordinates against cell1 and cell2
after computing row_start as cell1.row / 3 instead of 3 * (cell1.row / 3),
so the pair cells are not skipped: the notes of pair cell (3,3) change from
the two-digit pair to the empty set.  This refutes the claim. -/
theorem C3_counterexample :
    (eliminate_obvious_pair box_pair_notes).1 =
        some ⟨⟨3, 3⟩, ⟨3, 4⟩, {1, 2}, Box, 4⟩ ∧
      note box_pair_notes 30 = {1, 2} ∧
      note (eliminate_obvious_pair box_pair_notes).2 30 = ∅ := by
  refine ⟨by decide, by decide, by decide⟩

/-- Pointwise effect of a resolve_pair case whose targets are built by
mapping over the nine unit offsets: the k-th target writes to base k and is
skipped iff skip k is true. -/
theorem resolve_map_range_note (pair : Finset Nat) (ns : Notes) (base : Nat → Nat)
    (skip : Nat → Bool) (hinj : ∀ a b, a < 9 → b < 9 → base a = base b → a = b) (q : Nat) :
    ((∃ k, k < 9 ∧ skip k = false ∧ base k = q) →
      note ((resolve_pair_go pair ((List.range 9).map fun k => (skip k, base k)) (0, ns)).2) q =
        note ns q \ pair) ∧
    ((¬ ∃ k, k < 9 ∧ skip k = false ∧ base k = q) →
      note ((resolve_pair_go pair ((List.range 9).map fun k => (skip k, base k)) (0, ns)).2) q =
        note ns q) := by
  have hnd : ((((List.range 9).map fun k => (skip k, base k)).map fun t => t.2)).Nodup := by
    simp only [List.map_map]
    refine List.Nodup.map_on ?_ (List.nodup_range 9)
    intro a ha b hb hab
    simp only [Function.comp] at hab
    exact hinj a b (List.mem_range.mp ha) (List.mem_range.mp hb) hab
  constructor
  · rintro ⟨k, hk, hskip, hbase⟩
    rw [resolve_pair_go_note _ _ 0 ns q hnd, if_pos]
    refine List.mem_map.mpr ⟨k, List.mem_range.mpr hk, ?_⟩
    rw [hskip, hbase]
  · intro hno
    rw [resolve_pair_go_note _ _ 0 ns q hnd, if_neg]
    intro hmem
    obtain ⟨k, hk, he⟩ := List.mem_map.mp hmem
    have h1 : skip k = false := congrArg Prod.fst he
    have h2 : base k = q := congrArg Prod.snd he
    exact hno ⟨k, List.mem_range.mp hk, h1, h2⟩

/-- C3 amended: for Row and Column units the claim holds exactly as stated:
when find_obvious_pair_in_unit fires, resolve_pair removes the pair digits
from the notes of every other cell of that unit, leaves the two pair cells
unchanged, and leaves every cell outside the unit unchanged.  (For Box
units the skip comparison uses wrongly scaled coordinates, so the pair
cells themselves can lose the pair digits too; see the counterexample.) -/
theorem C3_pair_effect (ut : unit_t) (ui : Nat) (ns : Notes) (res : pair_result_t)
    (hut : ut = Row ∨ ut = Column)
    (hfind : find_obvious_pair_in_unit ut ui ns = some res) :
    (note (resolve_pair res ns).2 (index_for res.cell1.row res.cell1.col) =
        note ns (index_for res.cell1.row res.cell1.col)) ∧
      (note (resolve_pair res ns).2 (index_for res.cell2.row res.cell2.col) =
        note ns (index_for res.cell2.row res.cell2.col)) ∧
      (∀ k < 9, unit_cell_index ut ui k ≠ index_for res.cell1.row res.cell1.col →
        unit_cell_index ut ui k ≠ index_for res.cell2.row res.cell2.col →
        note (resolve_pair res ns).2 (unit_cell_index ut ui k) =
          note ns (unit_cell_index ut ui k) \ res.pair) ∧
      (∀ q, (∀ k < 9, q ≠ unit_cell_index ut ui k) →
        note (resolve_pair res ns).2 q = note ns q) := by
  obtain ⟨i, j, hi9, hj9, hij, hres, hc1, hc2, hcp⟩ :=
    find_obvious_pair_shape ut ui ns res hfind
  rcases hut with hut | hut
  · subst hut
    subst hres
    simp only [resolve_pair, unit_coord, index_for, unit_cell_index]
    have hrt : row_targets
        ⟨⟨ui, i⟩, ⟨ui, j⟩, note ns (ui * 9 + i) ∩ note ns (ui * 9 + j), Row, 0⟩ =
        (List.range 9).map fun col =>
          (decide ((ui = ui ∧ i = col) ∨ (ui = ui ∧ j = col)), ui * 9 + col) := rfl
    rw [hrt]
    have heff := resolve_map_range_note
      (note ns (ui * 9 + i) ∩ note ns (ui * 9 + j)) ns (fun col => ui * 9 + col)
      (fun col => decide ((ui = ui ∧ i = col) ∨ (ui = ui ∧ j = col)))
      (fun a b ha hb hab => by
        have hab2 : ui * 9 + a = ui * 9 + b := hab
        omega)
    refine ⟨?_, ?_, ?_, ?_⟩
    · refine (heff (ui * 9 + i)).2 ?_
      rintro ⟨k, hk, hskip, hbase⟩
      have hbase2 : ui * 9 + k = ui * 9 + i := hbase
      have hki : k = i := by omega
      have hskip2 : decide ((ui = ui ∧ i = k) ∨ (ui = ui ∧ j = k)) = false := hskip
      rw [decide_eq_false_iff_not] at hskip2
      exact hskip2 (Or.inl ⟨rfl, hki.symm⟩)
    · refine (heff (ui * 9 + j)).2 ?_
      rintro ⟨k, hk, hskip, hbase⟩
      have hbase2 : ui * 9 + k = ui * 9 + j := hbase
      have hkj : k = j := by omega
      have hskip2 : decide ((ui = ui ∧ i = k) ∨ (ui = ui ∧ j = k)) = false := hskip
      rw [decide_eq_false_iff_not] at hskip2
      exact hskip2 (Or.inr ⟨rfl, hkj.symm⟩)
    · intro k hk hk1 hk2
      have hk1b : k ≠ i := fun hh => hk1 (by omega)
      have hk2b : k ≠ j := fun hh => hk2 (by omega)
      refine (heff (ui * 9 + k)).1 ⟨k, hk, ?_, rfl⟩
      show decide ((ui = ui ∧ i = k) ∨ (ui = ui ∧ j = k)) = false
      rw [decide_eq_false_iff_not]
      rintro (⟨_, hh⟩ | ⟨_, hh⟩)
      · exact hk1b hh.symm
      · exact hk2b hh.symm
    · intro q hq
      refine (heff q).2 ?_
      rintro ⟨k, hk, _, hbase⟩
      have hbase2 : ui * 9 + k = q := hbase
      exact hq k hk hbase2.symm
  · subst hut
    subst hres
    simp only [resolve_pair, unit_coord, index_for, unit_cell_index]
    have hct : col_targets
        ⟨⟨i, ui⟩, ⟨j, ui⟩, note ns (i * 9 + ui) ∩ note ns (j * 9 + ui), Column, 0⟩ =
        (List.range 9).map fun row =>
          (decide ((i = row ∧ ui = ui) ∨ (j = row ∧ ui = ui)), row * 9 + ui) := rfl
    rw [hct]
    have heff := resolve_map_range_note
      (note ns (i * 9 + ui) ∩ note ns (j * 9 + ui)) ns (fun row => row * 9 + ui)
      (fun row => decide ((i = row ∧ ui = ui) ∨ (j = row ∧ ui = ui)))
      (fun a b ha hb hab => by
        have hab2 : a * 9 + ui = b * 9 + ui := hab
        omega)
    refine ⟨?_, ?_, ?_, ?_⟩
    · refine (heff (i * 9 + ui)).2 ?_
      rintro ⟨k, hk, hskip, hbase⟩
      have hbase2 : k * 9 + ui = i * 9 + ui := hbase
      have hki : k = i := by omega
      have hskip2 : decide ((i = k ∧ ui = ui) ∨ (j = k ∧ ui = ui)) = false := hskip
      rw [decide_eq_false_iff_not] at hskip2
      exact hskip2 (Or.inl ⟨hki.symm, rfl⟩)
    · refine (heff (j * 9 + ui)).2 ?_
      rintro ⟨k, hk, hskip, hbase⟩
      have hbase2 : k * 9 + ui = j * 9 + ui := hbase
      have hkj : k = j := by omega
      have hskip2 : decide ((i = k ∧ ui = ui) ∨ (j = k ∧ ui = ui)) = false := hskip
      rw [decide_eq_false_iff_not] at hskip2
      exact hskip2 (Or.inr ⟨hkj.symm, rfl⟩)
    · intro k hk hk1 hk2
      have hk1b : k ≠ i := fun hh => hk1 (by omega)
      have hk2b : k ≠ j := fun hh => hk2 (by omega)
      refine (heff (k * 9 + ui)).1 ⟨k, hk, ?_, rfl⟩
      show decide ((i = k ∧ ui = ui) ∨ (j = k ∧ ui = ui)) = false
      rw [decide_eq_false_iff_not]
      rintro (⟨hh, _⟩ | ⟨hh, _⟩)
      · exact hk1b hh.symm
      · exact hk2b hh.symm
    · intro q hq
      refine (heff q).2 ?_
      rintro ⟨k, hk, _, hbase⟩
      have hbase2 : k * 9 + ui = q := hbase
      exact hq k hk hbase2.symm

/-- Notes state with an obvious pair in row 0: cells (0,0) and (0,1) both
carry exactly the candidates 1 and 2, and cell (0,2) carries 1 and 3. -/
def row_pair_notes : Notes :=
  (List.range 81).map fun i =>
    if i = 0 ∨ i = 1 then ({1, 2} : Finset Nat) else if i = 2 then {1, 3} else ∅

/-- Witness for C3 amended at a concrete Row unit: the first pair cell keeps
its notes and the third cell of the row loses exactly the pair digits. -/
theorem C3_pair_effect_witness :
    note (resolve_pair (⟨⟨0, 0⟩, ⟨0, 1⟩, {1, 2}, Row, 0⟩ : pair_result_t) row_pair_notes).2 0 =
        note row_pair_notes 0 ∧
      note (resolve_pair (⟨⟨0, 0⟩, ⟨0, 1⟩, {1, 2}, Row, 0⟩ : pair_result_t) row_pair_notes).2 2 =
        note row_pair_notes 2 \ ({1, 2} : Finset Nat) := by
  have h := C3_pair_effect Row 0 row_pair_notes ⟨⟨0, 0⟩, ⟨0, 1⟩, {1, 2}, Row, 0⟩
    (Or.inl rfl) (by decide)
  exact ⟨h.1, h.2.2.1 2 (by decide) (by decide) (by decide)⟩

/-! ### Claim C4 -/

/-- Notes state with a genuine hidden pair in row 0: the digits 1 and 2 each
occur in exactly two note sets, both times in cells (0,0) and (0,1), and
cell (0,0) has the additional candidate 5.  The technique described by the
specification must narrow cells (0,0) and (0,1) to the pair 1, 2 and change
nothing else. -/
def hidden_pair_notes : Notes :=
  (List.range 81).map fun i =>
    if i = 0 then ({1, 2, 5} : Finset Nat)
    else if i = 1 then {1, 2}
    else if i = 2 then {3, 4}
    else if i = 3 then {3, 4, 6}
    else ∅

/-- C4: what the code actually does on hidden_pair_notes.  The hidden pair
of the specification sits in cells (0,0) and (0,1) with pair digits 1, 2.
The code instead reports cells (0,2) and (0,3) (because the subset test in
find_hidden_pair_in_unit is inverted: it collects the non-empty cells NOT
containing the pair), and then resolve_pair REMOVES the pair digits from
cells (0,0) and (0,1) instead of narrowing those two cells to the pair:
cell (0,0) ends at the singleton 5 and cell (0,1) at the empty set.  This
contradicts the specified technique (which the reset_resolutions comment in
the source marks as not implemented yet). -/
theorem C4_code_behavior :
    (eliminate_hidden_pair hidden_pair_notes).1 =
        some ⟨⟨0, 2⟩, ⟨0, 3⟩, {1, 2}, Row, 4⟩ ∧
      note (eliminate_hidden_pair hidden_pair_notes).2 0 = {5} ∧
      note (eliminate_hidden_pair hidden_pair_notes).2 1 = ∅ ∧
      note (eliminate_hidden_pair hidden_pair_notes).2 2 = {3, 4} ∧
      note (eliminate_hidden_pair hidden_pair_notes).2 3 = {3, 4, 6} := by
  refine ⟨by decide, by decide, by decide, by decide, by decide⟩

/-! ### Claim C5 -/

theorem mem_ALL_DIGITS (d : Nat) : d ∈ ALL_DIGITS ↔ 1 ≤ d ∧ d ≤ 9 := by
  simp only [ALL_DIGITS, Finset.mem_insert, Finset.mem_singleton]
  omega

/-- C5: after calc_all_candidates, a filled cell has an empty note set, and
the note set of an empty cell holds exactly the digits one through nine that do
not occur in any cell sharing a unit with it (its row, its column and its
box: precisely ALL_DIGITS minus the three forbidden sets). -/
theorem C5_calc_all_candidates (b : Board) (i : Nat) (hi : i < 81) :
    (cell b i ≠ EMPTY → note (calc_all_candidates b) i = ∅) ∧
      (cell b i = EMPTY → ∀ d, (d ∈ note (calc_all_candidates b) i ↔
        1 ≤ d ∧ d ≤ 9 ∧ ∀ q < 81, same_unit i q → cell b q ≠ d)) := by
  constructor
  · intro hne
    simp only [calc_all_candidates, note]
    rw [getD_map_range _ 81 i ∅ hi, if_neg hne]
  · intro he d
    simp only [calc_all_candidates, note]
    rw [getD_map_range _ 81 i ∅ hi, if_pos he]
    simp only [Finset.mem_sdiff, List.mem_toFinset, List.mem_map, List.mem_range,
      Finset.mem_singleton, mem_ALL_DIGITS, not_and, not_exists]
    constructor
    · rintro ⟨⟨⟨⟨hd1, hd9⟩, hr⟩, hc⟩, hb⟩
      have hd0 : d ≠ EMPTY := by simp only [EMPTY]; omega
      refine ⟨hd1, hd9, ?_⟩
      intro q hq hu hcell
      rcases hu with hu | hu | hu
      · refine hr ?_ hd0
        refine ⟨q % 9, Nat.mod_lt _ (by omega), ?_⟩
        simp only [get_row_for] at hu ⊢
        rw [show i / 9 * 9 + q % 9 = q by omega]
        exact hcell
      · refine hc ?_ hd0
        refine ⟨q / 9, by omega, ?_⟩
        simp only [get_col_for] at hu ⊢
        rw [show q / 9 * 9 + i % 9 = q by omega]
        exact hcell
      · refine hb ?_ hd0
        simp only [get_box_for, get_row_for, get_col_for] at hu ⊢
        refine ⟨(q / 9 - q / 9 / 3 * 3) * 3 + (q % 9 - q % 9 / 3 * 3), by omega, ?_⟩
        rw [show (3 * (i / 9 / 3) + i % 9 / 3) / 3 * 3 +
              ((q / 9 - q / 9 / 3 * 3) * 3 + (q % 9 - q % 9 / 3 * 3)) / 3 = q / 9 by omega,
            show (3 * (i / 9 / 3) + i % 9 / 3) % 3 * 3 +
              ((q / 9 - q / 9 / 3 * 3) * 3 + (q % 9 - q % 9 / 3 * 3)) % 3 = q % 9 by omega,
            show q / 9 * 9 + q % 9 = q by omega]
        exact hcell
    · rintro ⟨hd1, hd9, hall⟩
      have hd0 : ¬ d = EMPTY := by simp only [EMPTY]; omega
      refine ⟨⟨⟨⟨hd1, hd9⟩, ?_⟩, ?_⟩, ?_⟩
      · rintro ⟨c, hc9, hcell⟩ _
        refine hall (get_row_for i * 9 + c) (by simp only [get_row_for]; omega) ?_ hcell
        refine Or.inl ?_
        simp only [get_row_for]
        omega
      · rintro ⟨r, hr9, hcell⟩ _
        refine hall (r * 9 + get_col_for i) (by simp only [get_col_for]; omega) ?_ hcell
        refine Or.inr (Or.inl ?_)
        simp only [get_col_for]
        omega
      · rintro ⟨k, hk9, hcell⟩ _
        refine hall (get_box_for i / 3 * 3 * 9 + k / 3 * 9 + (get_box_for i % 3 * 3 + k % 3))
          (by simp only [get_box_for, get_row_for, get_col_for]; omega) ?_ ?_
        · refine Or.inr (Or.inr ?_)
          simp only [get_box_for, get_row_for, get_col_for]
          omega
        · rw [show get_box_for i / 3 * 3 * 9 + k / 3 * 9 + (get_box_for i % 3 * 3 + k % 3) =
            (get_box_for i / 3 * 3 + k / 3) * 9 + (get_box_for i % 3 * 3 + k % 3) by omega]
          exact hcell

/-- Witness for C5 at three_solution_board: cell index 2 is filled, so its
note set is empty; cell index 0 is empty, and the membership of digit 5 in
its note set is characterised by the unit scan. -/
theorem C5_calc_all_candidates_witness :
    note (calc_all_candidates three_solution_board) 2 = ∅ ∧
      (5 ∈ note (calc_all_candidates three_solution_board) 0 ↔
        1 ≤ 5 ∧ 5 ≤ 9 ∧ ∀ q < 81, same_unit 0 q → cell three_solution_board q ≠ 5) := by
  have h2 := C5_calc_all_candidates three_solution_board 2 (by decide)
  have h0 := C5_calc_all_candidates three_solution_board 0 (by decide)
  exact ⟨h2.1 (by decide), h0.2 (by decide) 5⟩

/-! ### Claim C9 -/

/-- C9: next_step returns false iff the board is fully filled after its (at
most one) technique application; and whenever the board is not solved and
none of the four techniques fires (so neither the board nor the notes
change), next_step returns true with the state unchanged, and the
solve_like_a_human loop runs forever: no iteration budget makes it stop. -/
theorem C9_next_step (b : Board) (ns : Notes) :
    ((next_step b ns).1 = !is_solved (next_step b ns).2.1) ∧
      (is_solved b = false →
        eliminate_obvious_single ns = none →
        find_first_hidden_single ns = none →
        (eliminate_obvious_pair ns).1 = none →
        (eliminate_hidden_pair (eliminate_obvious_pair ns).2).1 = none →
        next_step b ns = (true, b, ns) ∧ ∀ k, slah_run k b ns = false) := by
  constructor
  · cases hs : is_solved b with
    | true => simp [next_step, hs]
    | false =>
      simp only [next_step, hs, Bool.false_eq_true, if_false]
      cases eliminate_obvious_single ns with
      | some r => simp
      | none =>
        cases find_first_hidden_single ns with
        | some r => simp
        | none =>
          rcases hpair : eliminate_obvious_pair ns with ⟨o1, ns1⟩
          cases o1 with
          | some r => simp [hs]
          | none =>
            simp only []
            rcases hpair2 : eliminate_hidden_pair ns1 with ⟨o2, ns2⟩
            cases o2 with
            | some r => simp [hs]
            | none => simp [hs]
  · intro hs h1 h2 h3 h4
    have hr3 : eliminate_obvious_pair ns = (none, ns) := by
      have hrest : (eliminate_obvious_pair ns).2 = ns :=
        eliminate_pair_go_none find_obvious_pair_in_unit all_units_indexed ns h3
      have hsplit : eliminate_obvious_pair ns =
          ((eliminate_obvious_pair ns).1, (eliminate_obvious_pair ns).2) := rfl
      rw [hsplit, h3, hrest]
    have h4b : (eliminate_hidden_pair ns).1 = none := by
      rw [hr3] at h4
      exact h4
    have hr4 : eliminate_hidden_pair ns = (none, ns) := by
      have hrest : (eliminate_hidden_pair ns).2 = ns :=
        eliminate_pair_go_none find_hidden_pair_in_unit all_units_indexed ns h4b
      have hsplit : eliminate_hidden_pair ns =
          ((eliminate_hidden_pair ns).1, (eliminate_hidden_pair ns).2) := rfl
      rw [hsplit, h4b, hrest]
    have hnext : next_step b ns = (true, b, ns) := by
      simp [next_step, hs, h1, h2, hr3, hr4]
    refine ⟨hnext, ?_⟩
    intro k
    induction k with
    | zero => rfl
    | succ k ih =>
      simp only [slah_run, hnext]
      simpa using ih

/-- Witness for C9 at a concrete stuck state: an all-empty board with an
all-empty notes array: no technique fires there, next_step loops. -/
theorem C9_next_step_witness :
    next_step (List.replicate 81 0) (List.replicate 81 (∅ : Finset Nat)) =
        (true, List.replicate 81 0, List.replicate 81 ∅) ∧
      slah_run 7 (List.replicate 81 0) (List.replicate 81 ∅) = false := by
  have h := (C9_next_step (List.replicate 81 0) (List.replicate 81 ∅)).2
    (by decide) (by decide) (by decide) (by decide) (by decide)
  exact ⟨h.1, h.2 7⟩

/-! ### Claim C6: the generator acceptance loops of main.cpp -/

/-- The carving loop of prefill_single_generator_thread (and of the other
carving generators): visit the given cell positions in order while the
remaining target count e is positive; clear the cell, keep the clearing if
has_one_clear_solution says the board stays uniquely solvable (counting it)
and restore the saved value otherwise.  The board component threads the
board the uniqueness test leaves behind, exactly as the source works on its
single game object. -/
def carve_go (gs : List Nat) : List Nat → Board → Nat → Board × Nat
  | [], b, e => (b, e)
  | pos :: rest, b, e =>
    if 0 < e then
      let cell_copy := cell b pos
      let r := has_one_clear_solution gs (set_digit b pos EMPTY)
      if r.1 then carve_go gs rest r.2 (e - 1)
      else carve_go gs rest (set_digit r.2 pos cell_copy) e
    else (b, e)

/-- The placement loop of mincheck_generator_thread: while num_placed is
positive, take the cell at the current position of the shuffled visit order
(orders s uidx, where s counts the reshuffles), draw a digit (one plus the
next random draw modulo nine), place it if is_safe allows, and advance,
reshuffling and wrapping to position zero after position 80.  The random
draws and shuffle results are oracle inputs; fuel bounds the loop, and the
result is none when the loop has not finished within the fuel. -/
def mincheck_fill (draws : Nat → Nat) (orders : Nat → Nat → Nat) :
    Nat → Board → Nat → Nat → Nat → Nat → Option Board
  | 0, _, _, _, _, _ => none
  | fuel + 1, b, n, uidx, s, t =>
    if n = 0 then some b
    else
      let pos := orders s uidx
      let num := 1 + draws t % 9
      let st :=
        if is_safe b (get_row_for pos) (get_col_for pos) num then
          (set_digit b pos num, n - 1)
        else (b, n)
      let next :=
        if uidx + 1 = 81 then (0, s + 1) else (uidx + 1, s)
      mincheck_fill draws orders fuel st.1 st.2 next.1 next.2 (t + 1)

theorem empty_count_clear (b : Board) (p : Nat) (hp : p < b.length)
    (hb : cell b p ≠ EMPTY) : empty_count (set_digit b p EMPTY) = empty_count b + 1 := by
  induction b generalizing p with
  | nil => simp at hp
  | cons c t ih =>
    cases p with
    | zero =>
      have hc : ¬ ((c == 0) = true) := by simpa [cell, EMPTY] using hb
      have hset : set_digit (c :: t) 0 EMPTY = 0 :: t := rfl
      rw [hset]
      simp [empty_count, List.countP_cons, hc, EMPTY]
    | succ q =>
      have hq : q < t.length := by simpa using hp
      have hbq : cell t q ≠ EMPTY := hb
      have hih := ih q hq hbq
      have hset : set_digit (c :: t) (q + 1) EMPTY = c :: set_digit t q EMPTY := rfl
      rw [hset]
      simp only [empty_count, List.countP_cons] at hih ⊢
      omega

theorem empty_count_set_le (b : Board) (p v : Nat) :
    empty_count b ≤ empty_count (set_digit b p v) + 1 := by
  induction b generalizing p with
  | nil => simp [set_digit, empty_count]
  | cons c t ih =>
    cases p with
    | zero =>
      have hset : set_digit (c :: t) 0 v = v :: t := rfl
      rw [hset]
      simp only [empty_count, List.countP_cons]
      by_cases hc : (c == EMPTY) = true <;> by_cases hv : (v == EMPTY) = true <;>
        simp [hc, hv] <;> omega
    | succ q =>
      have hset : set_digit (c :: t) (q + 1) v = c :: set_digit t q v := rfl
      rw [hset]
      have hih := ih q
      simp only [empty_count, List.countP_cons] at hih ⊢
      omega

theorem is_complete_empty_count (b : Board) (hlen : b.length = 81)
    (hcomp : ∀ p < 81, cell b p ≠ EMPTY) : empty_count b = 0 := by
  refine List.countP_eq_zero.mpr fun a ha => ?_
  obtain ⟨i, hi, rfl⟩ := List.mem_iff_getElem.mp ha
  have hi81 : i < 81 := by omega
  have := hcomp i hi81
  rw [cell, List.getD_eq_getElem b EMPTY hi] at this
  simpa [EMPTY] using this

theorem carve_go_spec (gs : List Nat) :
    ∀ (order : List Nat) (b : Board) (e : Nat),
      b.length = 81 → order.Nodup → (∀ p ∈ order, p < 81 ∧ cell b p ≠ EMPTY) →
      (carve_go gs order b e).2 = 0 →
      (0 < e → empty_count (carve_go gs order b e).1 = empty_count b + e ∧
        (has_one_clear_solution gs (carve_go gs order b e).1).1 = true) ∧
      (e = 0 → (carve_go gs order b e).1 = b) := by
  intro order
  induction order with
  | nil =>
    intro b e _ _ _ hacc
    have he0 : e = 0 := hacc
    exact ⟨fun he => absurd he (by omega), fun _ => rfl⟩
  | cons pos rest ih =>
    intro b e hlen hnd hcells hacc
    obtain ⟨hp81, hpne⟩ := hcells pos (by simp)
    have hndr : rest.Nodup := (List.nodup_cons.mp hnd).2
    have hposr : pos ∉ rest := (List.nodup_cons.mp hnd).1
    by_cases he : 0 < e
    · refine ⟨fun _ => ?_, fun h0 => by omega⟩
      have hrb : (has_one_clear_solution gs (set_digit b pos EMPTY)).2 =
          set_digit b pos EMPTY := has_one_clear_solution_board gs _
      cases hr : (has_one_clear_solution gs (set_digit b pos EMPTY)).1 with
      | true =>
        have hstep : carve_go gs (pos :: rest) b e =
            carve_go gs rest (set_digit b pos EMPTY) (e - 1) := by
          simp only [carve_go, he, if_true, hr, hrb]
        rw [hstep] at hacc ⊢
        have hcells2 : ∀ p ∈ rest, p < 81 ∧ cell (set_digit b pos EMPTY) p ≠ EMPTY := by
          intro p hpr
          have hne : pos ≠ p := fun hh => hposr (hh ▸ hpr)
          rw [cell_set_digit_other b pos p EMPTY hne]
          exact hcells p (by simp [hpr])
        have hlen2 : (set_digit b pos EMPTY).length = 81 := by
          rw [length_set_digit]
          exact hlen
        have hec : empty_count (set_digit b pos EMPTY) = empty_count b + 1 :=
          empty_count_clear b pos (by omega) hpne
        have hih := ih (set_digit b pos EMPTY) (e - 1) hlen2 hndr hcells2 hacc
        by_cases he1 : 0 < e - 1
        · obtain ⟨hc1, hc2⟩ := hih.1 he1
          refine ⟨?_, hc2⟩
          rw [hc1, hec]
          omega
        · have he0 : e - 1 = 0 := by omega
          have hfix := hih.2 he0
          rw [he0] at hfix ⊢
          rw [hfix, hec]
          constructor
          · omega
          · have : has_one_clear_solution gs (set_digit b pos EMPTY) =
                ((has_one_clear_solution gs (set_digit b pos EMPTY)).1,
                  (has_one_clear_solution gs (set_digit b pos EMPTY)).2) := rfl
            rw [hr]
      | false =>
        have hres : set_digit ((has_one_clear_solution gs (set_digit b pos EMPTY)).2)
            pos (cell b pos) = b := by
          rw [hrb, set_digit_set_digit, set_digit_cell]
        have hstep : carve_go gs (pos :: rest) b e = carve_go gs rest b e := by
          simp only [carve_go, he, if_true, hr, hres, Bool.false_eq_true, if_false]
        rw [hstep] at hacc ⊢
        exact (ih b e hlen hndr (fun p hpr => hcells p (by simp [hpr])) hacc).1 he
    · have hc : carve_go gs (pos :: rest) b e = (b, e) := by
        simp only [carve_go]
        rw [if_neg he]
      rw [hc] at hacc ⊢
      exact ⟨fun hh => absurd hh he, fun _ => rfl⟩

theorem mincheck_fill_spec (draws : Nat → Nat) (orders : Nat → Nat → Nat) :
    ∀ (fuel : Nat) (b : Board) (n uidx s t : Nat) (bf : Board) (d : Nat),
      mincheck_fill draws orders fuel b n uidx s t = some bf →
      n + d ≤ empty_count b → d ≤ empty_count bf := by
  intro fuel
  induction fuel with
  | zero => intro b n uidx s t bf d h; simp [mincheck_fill] at h
  | succ fuel ih =>
    intro b n uidx s t bf d h hinv
    by_cases hn : n = 0
    · simp only [mincheck_fill, hn, if_pos] at h
      have hbf : b = bf := Option.some.inj (by simpa using h)
      rw [← hbf]
      omega
    · simp only [mincheck_fill, hn, if_false] at h
      by_cases hsafe : is_safe b (get_row_for (orders s uidx)) (get_col_for (orders s uidx))
          (1 + draws t % 9) = true
      · simp only [hsafe, if_true] at h
        refine ih _ _ _ _ _ bf d h ?_
        have := empty_count_set_le b (orders s uidx) (1 + draws t % 9)
        omega
      · simp only [hsafe, Bool.false_eq_true, if_false] at h
        exact ih _ _ _ _ _ bf d h (by omega)

/-- C6: on acceptance with d = 0 the prefill-single carve loop publishes a
complete board as a success (complete == true, exactly d = 0 EMPTY cells)
for which has_one_clear_solution() is false, because the uniqueness test
returns false on any completely filled board.  This refutes the claim that
every accepted board satisfies has_one_clear_solution() == true. -/
theorem C6_counterexample :
    (carve_go digits_in_order [] demo_grid 0).2 = 0 ∧
      empty_count (carve_go digits_in_order [] demo_grid 0).1 = 0 ∧
      (has_one_clear_solution digits_in_order
        (carve_go digits_in_order [] demo_grid 0).1).1 = false := by
  refine ⟨rfl, by decide, by decide⟩

/-- C6 amended.  Prefill-single: when the carve loop starts from a fully
filled board, visits distinct in-range positions and accepts (the remaining
target count reaches 0), the published board has exactly d EMPTY cells, and
for d at least 1 it also satisfies has_one_clear_solution() == true at the
moment of acceptance.  Mincheck: when the placement loop for target d
finishes, the resulting board has AT LEAST d EMPTY cells (a reshuffle wrap
can revisit and overwrite an already filled cell, so exactly d is not
guaranteed), and the uniqueness test that gates acceptance leaves the board
it judges unchanged, so its verdict applies to the published board. -/
theorem C6_generator_accept (gs : List Nat) :
    (∀ (order : List Nat) (b0 : Board) (d : Nat),
      b0.length = 81 → (∀ p < 81, cell b0 p ≠ EMPTY) → order.Nodup →
      (∀ p ∈ order, p < 81) →
      (carve_go gs order b0 d).2 = 0 →
      empty_count (carve_go gs order b0 d).1 = d ∧
        (0 < d → (has_one_clear_solution gs (carve_go gs order b0 d).1).1 = true)) ∧
    (∀ (draws : Nat → Nat) (orders : Nat → Nat → Nat) (fuel : Nat) (b0 : Board)
      (d : Nat) (bf : Board),
      d ≤ 81 → empty_count b0 = 81 →
      mincheck_fill draws orders fuel b0 (81 - d) 0 0 0 = some bf →
      d ≤ empty_count bf ∧ (has_one_clear_solution gs bf).2 = bf) := by
  constructor
  · intro order b0 d hlen hcomp hnd horder hacc
    have hcells : ∀ p ∈ order, p < 81 ∧ cell b0 p ≠ EMPTY := fun p hp =>
      ⟨horder p hp, hcomp p (horder p hp)⟩
    have hspec := carve_go_spec gs order b0 d hlen hnd hcells hacc
    have he0 : empty_count b0 = 0 := is_complete_empty_count b0 hlen hcomp
    by_cases hd : 0 < d
    · obtain ⟨hc1, hc2⟩ := hspec.1 hd
      exact ⟨by omega, fun _ => hc2⟩
    · have hd0 : d = 0 := by omega
      have hfix := hspec.2 hd0
      subst hd0
      rw [hfix]
      exact ⟨he0, fun hh => absurd hh (by omega)⟩
  · intro draws orders fuel b0 d bf hd hb0 hfill
    refine ⟨mincheck_fill_spec draws orders fuel b0 (81 - d) 0 0 0 bf d hfill (by omega),
      has_one_clear_solution_board gs bf⟩

/-- Witness for C6 amended: a prefill-single acceptance with d = 1 (carving
the centre cell out of demo_grid succeeds and is accepted with exactly one
EMPTY cell and a positive uniqueness verdict), and a mincheck run with
d = 81 that finishes immediately on the all-empty board. -/
theorem C6_generator_accept_witness :
    (empty_count (carve_go digits_in_order [40] demo_grid 1).1 = 1 ∧
      (has_one_clear_solution digits_in_order
        (carve_go digits_in_order [40] demo_grid 1).1).1 = true) ∧
    (81 ≤ empty_count (List.replicate 81 (0 : Nat)) ∧
      (has_one_clear_solution digits_in_order (List.replicate 81 (0 : Nat))).2 =
        List.replicate 81 (0 : Nat)) := by
  have h := C6_generator_accept digits_in_order
  have h1 := h.1 [40] demo_grid 1 (by decide) (by decide) (by decide)
    (by decide) (by decide)
  have h2 := h.2 (fun _ => 0) (fun _ _ => 0) 1 (List.replicate 81 0) 81
    (List.replicate 81 0) (by omega) (by decide) (by decide)
  exact ⟨⟨h1.1, h1.2 (by omega)⟩, h2⟩

end Sudoku
